import Mathlib

/-!
Verification of the expense-tracker core (record store, CSV codec,
aggregation views) against its natural-language specification.

The TypeScript sources are shallowly embedded:

* all text processing is done on `List Char` with structural recursion,
  so every definition evaluates by kernel reduction;
* the host environment is modelled as follows: the local time zone is UTC
  (so `getFullYear`/`getMonth`/`getDate` of a parsed date agree with the
  date's own fields and `toISOString` of local noon prints noon), the
  single `localStorage` key is modelled by the `Persisted` state type
  (JSON (de)serialization of the record array is represented structurally
  rather than as raw text), `crypto.randomUUID` and `Date.getTime` are
  injected as explicit function arguments, and the fragment of the host's
  `Date` string parser that the code exercises (the ISO date-only form
  `YYYY-MM-DD`) is modelled exactly, all other strings being treated as
  invalid dates;
* `Array.prototype.sort` with a comparator is modelled by insertion sort;
  both are stable comparator sorts, and no verified property depends on
  the order of ties;
* machine numbers: amounts are integer-valued throughout the verified
  code paths, so they are modelled as `Int`; the fractional values that
  can appear transiently inside `parseFloat`/`Math.round` are modelled
  exactly, as numerator/denominator pairs.
-/

namespace ExpenseTracker

/-! ## Character-list helpers (JS string primitives) -/

/-- JS `String.prototype.trim`, on the ASCII whitespace the code meets. -/
def trimL (l : List Char) : List Char :=
  ((l.dropWhile Char.isWhitespace).reverse.dropWhile Char.isWhitespace).reverse

/-- JS `String.prototype.toLowerCase` (ASCII fragment). -/
def toLowerL (l : List Char) : List Char :=
  l.map Char.toLower

/-- Split a character list at every occurrence of `sep` (JS `split`). -/
def splitOnChar (sep : Char) : List Char → List (List Char)
  | [] => [[]]
  | c :: cs =>
    if c = sep then [] :: splitOnChar sep cs
    else
      match splitOnChar sep cs with
      | [] => [[c]]
      | h :: t => (c :: h) :: t

/-- Drop a single final carriage return, so that splitting on `'\n'` and then
applying this models splitting on the regex of an optional CR before LF. -/
def dropFinalCR (l : List Char) : List Char :=
  if l.getLast? = some '\r' then l.dropLast else l

/-- JS `text.split(/\r?\n/)`. -/
def jsLines (l : List Char) : List (List Char) :=
  (splitOnChar '\n' l).map dropFinalCR

/-- JS `String.prototype.includes` (substring test). -/
def hasInfixL : List Char → List Char → Bool
  | [], needle => needle.isEmpty
  | h :: t, needle => needle.isPrefixOf (h :: t) || hasInfixL t needle

/-- The decimal digit character for a value below ten. -/
def digitChar : Nat → Char
  | 0 => '0' | 1 => '1' | 2 => '2' | 3 => '3' | 4 => '4'
  | 5 => '5' | 6 => '6' | 7 => '7' | 8 => '8' | _ => '9'

/-- Numeric value of a decimal digit character. -/
def charVal (c : Char) : Nat := c.toNat - 48

/-- Decimal digits of `n`, most significant first (fuel-driven so that it
reduces in the kernel); models JS `String(n)` for natural `n`. -/
def natToStrAux : Nat → Nat → List Char
  | 0, _ => []
  | fuel + 1, n =>
    if n < 10 then [digitChar n] else natToStrAux fuel (n / 10) ++ [digitChar (n % 10)]

/-- JS `String(n)` for a natural number. -/
def natToStr (n : Nat) : List Char := natToStrAux (n + 1) n

/-- JS `String(i)` for an integer. -/
def intToStr (i : Int) : List Char :=
  if i < 0 then '-' :: natToStr i.natAbs else natToStr i.toNat

/-- Exactly `k` decimal digits of `n % 10^k`, most significant first; models
JS `String(n).padStart(k, "0")` for `n < 10^k`. -/
def digitsFix : Nat → Nat → List Char
  | 0, _ => []
  | k + 1, n => digitChar (n / 10 ^ k % 10) :: digitsFix k n

/-- Two-digit zero-padded field of a date key or ISO string. -/
def pad2 (n : Nat) : List Char := digitsFix 2 n

/-- Four-digit zero-padded year field of an ISO string. -/
def pad4 (n : Nat) : List Char := digitsFix 4 n

/-- Value of a list of decimal digit characters, most significant first. -/
def valDigits (l : List Char) : Nat :=
  l.foldl (fun a c => a * 10 + charVal c) 0

/-- Join character lists with a comma between them (JS `Array.join(",")`). -/
def joinComma : List (List Char) → List Char
  | [] => []
  | [x] => x
  | x :: xs => x ++ ',' :: joinComma xs

/-- Join character lists with a newline between them (JS `Array.join("\n")`). -/
def joinNL : List (List Char) → List Char
  | [] => []
  | [x] => x
  | x :: xs => x ++ '\n' :: joinNL xs

/-! ## Data model (`src/lib/types.ts`) -/

/-- The closed category enumeration `CATEGORIES` of `src/lib/types.ts`. -/
inductive Category where
  | food | entertainment | transportation | groceries | shopping
  | others | sports | necessities | travelling | sasha
deriving DecidableEq, Fintype

/-- The lowercase tag of a category, as it appears in `CATEGORIES`. -/
def Category.toStr : Category → String
  | .food => "food"
  | .entertainment => "entertainment"
  | .transportation => "transportation"
  | .groceries => "groceries"
  | .shopping => "shopping"
  | .others => "others"
  | .sports => "sports"
  | .necessities => "necessities"
  | .travelling => "travelling"
  | .sasha => "sasha"

/-- Lookup of a (lower-cased) category string in `CATEGORY_MAP`, with the
`?? "others"` fallback of `src/lib/csv.ts`. -/
def categoryOfStr (s : List Char) : Category :=
  if s = "food".data then .food
  else if s = "entertainment".data then .entertainment
  else if s = "transportation".data then .transportation
  else if s = "groceries".data then .groceries
  else if s = "shopping".data then .shopping
  else if s = "others".data then .others
  else if s = "sports".data then .sports
  else if s = "necessities".data then .necessities
  else if s = "travelling".data then .travelling
  else if s = "sasha".data then .sasha
  else .others

/-- The `Expense` record of `src/lib/types.ts`. -/
structure Expense where
  id : String
  amount : Int
  category : Category
  note : String
  createdAt : String
deriving DecidableEq

/-! ## CSV decoding (`src/lib/csv.ts`) -/

/-- Loop of `parseCSVLine`: `cur` is the field being accumulated and `inQ`
the `inQuotes` flag; a quote toggles the flag and is never emitted, a comma
outside quotes closes the current field, bare LF and CR characters are
dropped, and every field is trimmed as it is pushed. -/
def parseCSVLineAux : List Char → List Char → Bool → List (List Char)
  | [], cur, _ => [trimL cur]
  | c :: cs, cur, inQ =>
    if c = '"' then parseCSVLineAux cs cur (!inQ)
    else if c = ',' ∧ inQ = false then trimL cur :: parseCSVLineAux cs [] inQ
    else if c = '\n' ∨ c = '\r' then parseCSVLineAux cs cur inQ
    else parseCSVLineAux cs (cur ++ [c]) inQ

/-- `parseCSVLine` of `src/lib/csv.ts`. -/
def parseCSVLine (l : List Char) : List (List Char) :=
  parseCSVLineAux l [] false

/-- Whether `y` is a leap year (Gregorian). -/
def isLeap (y : Nat) : Bool :=
  y % 4 = 0 ∧ (y % 100 ≠ 0 ∨ y % 400 = 0)

/-- Number of days in month `m` of year `y`. -/
def daysInMonth (y m : Nat) : Nat :=
  if m = 2 then (if isLeap y then 29 else 28)
  else if m = 4 ∨ m = 6 ∨ m = 9 ∨ m = 11 then 30
  else 31

/-- Validity of a calendar date. -/
def dateOK (y m d : Nat) : Prop :=
  1 ≤ m ∧ m ≤ 12 ∧ 1 ≤ d ∧ d ≤ daysInMonth y m

instance (y m d : Nat) : Decidable (dateOK y m d) := by
  unfold dateOK; infer_instance

/-- The fragment of the host `new Date(string)` parser that the code
exercises: the ISO date-only form `YYYY-MM-DD` with a valid calendar date;
every other string yields an invalid date (`NaN` time value). -/
def jsDateParse (l : List Char) : Option (Nat × Nat × Nat) :=
  match l with
  | [y1, y2, y3, y4, s1, m1, m2, s2, d1, d2] =>
    if (s1 = '-' ∧ s2 = '-' ∧ y1.isDigit ∧ y2.isDigit ∧ y3.isDigit ∧ y4.isDigit ∧
        m1.isDigit ∧ m2.isDigit ∧ d1.isDigit ∧ d2.isDigit) then
      let y := valDigits [y1, y2, y3, y4]
      let m := valDigits [m1, m2]
      let d := valDigits [d1, d2]
      if dateOK y m d then some (y, m, d) else none
    else none
  | _ => none

/-- The year produced by the `new Date(y, m, d, 12, 0, 0)` constructor: the
host maps two-digit years to 1900+y. -/
def localNoonYear (y : Nat) : Nat :=
  if y ≤ 99 then 1900 + y else y

/-- Characters of `new Date(y, m-1, d, 12, 0, 0).toISOString()` with the
local time zone modelled as UTC. -/
def localNoonChars (y m d : Nat) : List Char :=
  pad4 (localNoonYear y) ++ '-' :: pad2 m ++ '-' :: pad2 d ++ "T12:00:00.000Z".data

/-- JS `replace(/[^0-9.-]/g, "")` on the amount token. -/
def keepAmountChars (l : List Char) : List Char :=
  l.filter (fun c => c.isDigit ∨ c = '.' ∨ c = '-')

/-- JS `parseFloat` on a string of digits, dots and minus signs: an optional
leading minus, then digits, then an optional dot and fraction digits,
ignoring everything after; `none` models `NaN`. The exact rational value is
returned as a numerator/positive-denominator pair. -/
def parseFloatFrac (l : List Char) : Option (Int × Nat) :=
  let l1 := if l.head? = some '-' then l.tail else l
  let ds := l1.takeWhile Char.isDigit
  let r1 := l1.dropWhile Char.isDigit
  let sign : Int := if l.head? = some '-' then -1 else 1
  if r1.head? = some '.' then
    let fs := r1.tail.takeWhile Char.isDigit
    if ds.isEmpty ∧ fs.isEmpty then none
    else some (sign * (valDigits ds * 10 ^ fs.length + valDigits fs), 10 ^ fs.length)
  else if ds.isEmpty then none else some (sign * valDigits ds, 1)

/-- JS `Math.round` of the exact rational `n / d` (`d > 0`): half rounds
toward positive infinity, so the result is the floor of `n / d + 1 / 2`. -/
def jsRoundFrac (n : Int) (d : Nat) : Int := Int.fdiv (2 * n + d) (2 * d)

/-- The computed amount of a data row:
`Math.round(parseFloat(token.replace(/[^0-9.-]/g, "")) || 0)` (a `NaN`
parse is replaced by 0, which rounds to 0). -/
def jsAmount (l : List Char) : Int :=
  match parseFloatFrac (keepAmountChars l) with
  | none => 0
  | some (n, d) => jsRoundFrac n d

/-- JS `replace(/^"|"$/g, "")`: strip one leading and one trailing quote. -/
def stripEdgeQuotes (l : List Char) : List Char :=
  let l1 := if l.head? = some '"' then l.tail else l
  if l1.getLast? = some '"' then l1.dropLast else l1

/-- One row of `parseCSV` output. -/
structure ParsedRow where
  date : String
  category : Category
  note : String
  amount : Int
deriving DecidableEq

/-- The body of the `parseCSV` loop for one data line: `none` when the line
is skipped (fewer than 4 tokens, invalid date, or non-positive amount). -/
def rowOfLine (l : List Char) : Option ParsedRow :=
  let parts := parseCSVLine l
  if parts.length < 4 then none
  else
    let dateStr := trimL (parts.headD [])
    let categoryStr := toLowerL (trimL (parts.getD 1 []))
    let note0 := stripEdgeQuotes (trimL (joinComma ((parts.drop 2).dropLast)))
    let amountNum := jsAmount (parts.getD (parts.length - 1) [])
    match jsDateParse dateStr with
    | none => none
    | some (y, m, d) =>
      if amountNum ≤ 0 then none
      else
        some { date := ⟨localNoonChars y m d⟩
             , category := categoryOfStr categoryStr
             , note := if note0.isEmpty then "Imported" else ⟨note0⟩
             , amount := amountNum }

/-- `parseCSV` of `src/lib/csv.ts`. -/
def parseCSV (text : String) : List ParsedRow :=
  let lines := (jsLines text.data).filter (fun l => !(trimL l).isEmpty)
  let dataLines :=
    match lines with
    | [] => []
    | l0 :: rest =>
      if hasInfixL (toLowerL l0) "date".data ∧ hasInfixL (toLowerL l0) "category".data
      then rest else l0 :: rest
  dataLines.filterMap rowOfLine

/-! ## CSV encoding (`exportToCSV` of `src/lib/storage.ts`) -/

/-- Double every quote character (JS `replace(/"/g, um)` inside `escape`). -/
def doubleQuotes : List Char → List Char
  | [] => []
  | c :: t => if c = '"' then '"' :: '"' :: doubleQuotes t else c :: doubleQuotes t

/-- The `escape` helper of `exportToCSV`: wrap in quotes, doubling inner
quotes, exactly when the text contains a comma, a quote or a newline. -/
def escapeNote (s : List Char) : List Char :=
  if s.any (fun c => c = ',' ∨ c = '"' ∨ c = '\n')
  then '"' :: doubleQuotes s ++ ['"']
  else s

/-- One exported line:
`createdAt.slice(0,10) , category , escape(note) , amount`. -/
def exportLine (e : Expense) : List Char :=
  e.createdAt.data.take 10 ++ ',' :: e.category.toStr.data
    ++ ',' :: escapeNote e.note.data ++ ',' :: intToStr e.amount

/-- `exportToCSV` of `src/lib/storage.ts`. -/
def exportToCSV (expenses : List Expense) : String :=
  ⟨joinNL ("date,category,note,amount".data :: expenses.map exportLine)⟩

/-! ## Record store (`src/lib/storage.ts`)

The single `localStorage` key is modelled by `Persisted`: the key can be
absent, hold text that `JSON.parse` rejects (`corrupt`), hold JSON that is
not an array (`nonArray`), or hold a serialized record array whose entries
may lack the `note` field (`records`). -/

/-- A record as it sits in the persisted payload: `note` optionally absent
(legacy entries). -/
structure StoredExpense where
  id : String
  amount : Int
  category : Category
  note : Option String
  createdAt : String
deriving DecidableEq

/-- State of the `localStorage` key `expense_tracker_expenses`. -/
inductive Persisted where
  | absent
  | corrupt
  | nonArray
  | records (items : List StoredExpense)
deriving DecidableEq

/-- Deserialize one stored record, normalizing an absent note to `""`
(the `note: e.note ?? ""` map in `getExpenses`). -/
def readExpense (s : StoredExpense) : Expense :=
  ⟨s.id, s.amount, s.category, s.note.getD "", s.createdAt⟩

/-- Serialize one record (`JSON.stringify` keeps every field). -/
def writeExpense (e : Expense) : StoredExpense :=
  ⟨e.id, e.amount, e.category, some e.note, e.createdAt⟩

/-- `getExpenses` of `src/lib/storage.ts`. -/
def getExpenses : Persisted → List Expense
  | .records l => l.map readExpense
  | _ => []

/-- `saveExpenses` of `src/lib/storage.ts` (overwrites the key). -/
def saveExpenses (expenses : List Expense) : Persisted :=
  .records (expenses.map writeExpense)

/-- The `Partial<Pick<Expense, "amount" | "category" | "note">>` argument of
`updateExpense`: each field present or absent. -/
structure ExpenseUpdate where
  amount : Option Int := none
  category : Option Category := none
  note : Option String := none

/-- JS object spread `{ ...e, ...u }`: fields present in `u` override. -/
def applyUpdate (e : Expense) (u : ExpenseUpdate) : Expense :=
  { e with
    amount := u.amount.getD e.amount
    category := u.category.getD e.category
    note := u.note.getD e.note }

/-- Fallback record for indexing guarded by `findIdx?` (never read). -/
def defaultExpense : Expense := ⟨"", 0, .others, "", ""⟩

/-- `updateExpense` of `src/lib/storage.ts`; returns the function result
paired with the new state of the storage key. -/
def updateExpense (eid : String) (u : ExpenseUpdate) (st : Persisted) :
    Option Expense × Persisted :=
  let expenses := getExpenses st
  match expenses.findIdx? (fun e => e.id == eid) with
  | none => (none, st)
  | some i =>
    let updated := applyUpdate (expenses.getD i defaultExpense) u
    (some updated, saveExpenses (expenses.set i updated))

/-- One row handed to `importExpenses`. -/
structure ImportItem where
  amount : Int
  category : Category
  note : String
  createdAt : String
deriving DecidableEq

/-- A fresh record built from an import row and a generated id. -/
def mkImported (id : String) (it : ImportItem) : Expense :=
  ⟨id, it.amount, it.category, it.note, it.createdAt⟩

/-- The new records of one `importExpenses` call: row `i` receives the
`i`-th freshly generated id (`crypto.randomUUID`, injected as `gen`). -/
def mkNewExpenses (gen : Nat → String) (items : List ImportItem) : List Expense :=
  items.enum.map (fun p => mkImported (gen p.1) p.2)

/-- The descending-`createdAt` comparator of `importExpenses`
(`(a, b) => new Date(b.createdAt).getTime() - new Date(a.createdAt).getTime()`),
with `Date.getTime` injected as `timeOf`. -/
def createdDesc (timeOf : String → Int) (a b : Expense) : Prop :=
  timeOf b.createdAt ≤ timeOf a.createdAt

instance (timeOf : String → Int) : DecidableRel (createdDesc timeOf) := by
  unfold createdDesc; infer_instance

/-- `importExpenses` of `src/lib/storage.ts`; the comparator sort is
modelled by insertion sort. -/
def importExpenses (gen : Nat → String) (timeOf : String → Int)
    (items : List ImportItem) (st : Persisted) : Nat × Persisted :=
  if items.length = 0 then (0, st)
  else
    let existing := getExpenses st
    let newExpenses := mkNewExpenses gen items
    let merged := (newExpenses ++ existing).insertionSort (createdDesc timeOf)
    (newExpenses.length, saveExpenses merged)

/-! ## Aggregation views (`groupByPeriod` of the main component)

Calendar arithmetic below follows the standard civil-calendar algorithms;
it implements the host's `getDay`/`setDate` behaviour used to find the
Sunday starting a week. Day counts are kept in `Nat` by shifting the year
by +400 (146097 days per 400-year era). -/

/-- Days since 0000-03-01 of the (+400-year shifted) date. -/
def daysAbs (y m d : Nat) : Nat :=
  let y' := (y + 400) - (if m ≤ 2 then 1 else 0)
  let era := y' / 400
  let yoe := y' % 400
  let mp := (m + 9) % 12
  let doy := (153 * mp + 2) / 5 + (d - 1)
  let doe := yoe * 365 + yoe / 4 - yoe / 100 + doy
  era * 146097 + doe

/-- Civil date of a shifted day count (inverse of `daysAbs`). -/
def civilOfDays (z : Nat) : Nat × Nat × Nat :=
  let era := z / 146097
  let doe := z % 146097
  let yoe := (doe - doe / 1460 + doe / 36524 - doe / 146096) / 365
  let doy := doe - (365 * yoe + yoe / 4 - yoe / 100)
  let mp := (5 * doy + 2) / 153
  let d := doy - (153 * mp + 2) / 5 + 1
  let m := if mp < 10 then mp + 3 else mp - 9
  let y := yoe + era * 400 + (if m ≤ 2 then 1 else 0)
  (y - 400, m, d)

/-- JS `Date.prototype.getDay`: 0 = Sunday. 1970-01-01 was a Thursday. -/
def dowOf (y m d : Nat) : Nat := (daysAbs y m d + 3) % 7

/-- The Sunday starting the week of a date
(`start.setDate(d.getDate() - d.getDay())`). -/
def startOfWeek (y m d : Nat) : Nat × Nat × Nat :=
  civilOfDays (daysAbs y m d - dowOf y m d)

/-- The `Period` type of the main component. -/
inductive Period where
  | day | week | month
deriving DecidableEq

/-- The `YYYY-MM-DD` day key (`${y}-${pad2 m}-${pad2 d}`, year unpadded). -/
def keyDayChars (y m d : Nat) : List Char :=
  natToStr y ++ '-' :: pad2 m ++ '-' :: pad2 d

/-- The date fields the component reads from `new Date(iso)`: the modelled
host accepts the ISO calendar-date prefix. -/
def isoYMD (iso : String) : Option (Nat × Nat × Nat) :=
  jsDateParse (iso.data.take 10)

/-- `getPeriodKey` of the main component; an unparseable timestamp yields
the `NaN` keys the host would print. -/
def getPeriodKey (iso : String) (p : Period) : String :=
  match isoYMD iso with
  | none => match p with
    | .month => "NaN-NaN"
    | _ => "NaN-NaN-NaN"
  | some (y, m, d) =>
    match p with
    | .day => ⟨keyDayChars y m d⟩
    | .month => ⟨natToStr y ++ '-' :: pad2 m⟩
    | .week =>
      let s := startOfWeek y m d
      ⟨keyDayChars s.1 s.2.1 s.2.2⟩

/-- One value of the `byKey` map of `groupByPeriod`. -/
structure PEntry where
  total : Int
  byCategory : Category → Int

/-- The all-zero per-category table (`catZero`). -/
def catZero : Category → Int := fun _ => 0

/-- Point update of a per-category table
(`entry.byCategory[c] = (entry.byCategory[c] ?? 0) + amount`). -/
def bumpCat (f : Category → Int) (c : Category) (a : Int) : Category → Int :=
  fun c' => if c' = c then f c' + a else f c'

/-- Insert one expense into the `byKey` map (a JS `Map`: updates happen in
place, a new key is appended at the end). -/
def mapAdd : List (String × PEntry) → String → Expense → List (String × PEntry)
  | [], k, ex => [(k, ⟨ex.amount, bumpCat catZero ex.category ex.amount⟩)]
  | (k', en) :: rest, k, ex =>
    if k' = k then
      (k', ⟨en.total + ex.amount, bumpCat en.byCategory ex.category ex.amount⟩) :: rest
    else (k', en) :: mapAdd rest k ex

/-- The `byKey` map after the `for` loop of `groupByPeriod`. -/
def buildMap (es : List Expense) (p : Period) : List (String × PEntry) :=
  es.foldl (fun acc ex => mapAdd acc (getPeriodKey ex.createdAt p) ex) []

/-- One bucket of the `groupByPeriod` result. The display label (a
locale-formatted string) is display-only and not modelled. -/
structure PBucket where
  key : String
  total : Int
  byCategory : Category → Int

/-- Strict lexicographic codepoint order on character lists (the collation
`localeCompare` applies to these ASCII keys). -/
def lexLt : List Char → List Char → Bool
  | [], [] => false
  | [], _ :: _ => true
  | _ :: _, [] => false
  | a :: as, b :: bs => if a < b then true else if b < a then false else lexLt as bs

/-- The descending key order of `groupByPeriod`
(`(a, b) => b.localeCompare(a)`): `a` may precede `b` when `a` is not
lexicographically below `b`. -/
def keyDesc (a b : String) : Prop := lexLt a.data b.data = false

instance : DecidableRel keyDesc := by
  unfold keyDesc; infer_instance

/-- `groupByPeriod` of the main component: sort the distinct keys newest
first, cap at 14, and read each bucket off the map. -/
def groupByPeriod (es : List Expense) (p : Period) : List PBucket :=
  let m := buildMap es p
  let keys := m.map Prod.fst
  let sorted := keys.insertionSort keyDesc
  (sorted.take 14).map (fun k =>
    let en := (m.lookup k).getD ⟨0, catZero⟩
    ⟨k, en.total, en.byCategory⟩)

/-! ## Specification-side definitions used to state the claims -/

/-- Total amount of a list of records. -/
def sumAmounts (es : List Expense) : Int :=
  (es.map Expense.amount).sum

/-- The period key of a record, in claim C4's statements. -/
def keyOf (p : Period) (e : Expense) : String :=
  getPeriodKey e.createdAt p

/-- Total amount of the records of one period bucket. -/
def keySum (es : List Expense) (p : Period) (k : String) : Int :=
  sumAmounts (es.filter (fun e => keyOf p e = k))

/-- Total amount of the records of one period bucket in one category. -/
def catSum (es : List Expense) (p : Period) (k : String) (c : Category) : Int :=
  sumAmounts (es.filter (fun e => keyOf p e = k ∧ e.category = c))

/-- The note as claim C2 words it: the tokens from position 1 through the
last token, joined back by commas, trimmed, enclosing quotes stripped, the
empty result replaced by "Imported". -/
def noteFromTokensClaimed (parts : List (List Char)) : String :=
  let t := stripEdgeQuotes (trimL (joinComma (parts.drop 1)))
  if t.isEmpty then "Imported" else ⟨t⟩

/-- The note as the code computes it, in claim C2's vocabulary: the tokens
from position 2 through the second-to-last token (the final token, the
amount, excluded), joined back by commas, trimmed, enclosing quotes
stripped, the empty result replaced by "Imported". -/
def noteFromTokens (parts : List (List Char)) : String :=
  let t := stripEdgeQuotes (trimL (joinComma ((parts.take (parts.length - 1)).drop 2)))
  if t.isEmpty then "Imported" else ⟨t⟩

/-- The `YYYY-MM-DD` character block opening a well-formed ISO timestamp. -/
def isoDateChars (y m d : Nat) : List Char :=
  pad4 y ++ '-' :: pad2 m ++ '-' :: pad2 d

/-- A note that survives the CSV round trip unchanged: non-empty, free of
double quotes, newlines and carriage returns, and carrying no surrounding
whitespace (the tokenizer trims each field). -/
def noteOK (s : String) : Prop :=
  s.data ≠ [] ∧ trimL s.data = s.data ∧ '"' ∉ s.data ∧ '\n' ∉ s.data ∧ '\r' ∉ s.data

/-- A well-formed ISO timestamp: it opens with a valid zero-padded
`YYYY-MM-DD` calendar date whose year avoids the host's two-digit-year
rewrite and fits in four digits. -/
def createdAtOK (s : String) : Prop :=
  ∃ y m d rest, s.data = isoDateChars y m d ++ rest ∧ dateOK y m d ∧ 100 ≤ y ∧ y ≤ 9999

/-- A record valid for the round trip of claim C1 (as amended). -/
def validExpense (r : Expense) : Prop :=
  0 < r.amount ∧ noteOK r.note ∧ createdAtOK r.createdAt

/-- The row the round trip is expected to produce for a record: amount,
category and note unchanged, the date reduced to the record's calendar day
at local noon. -/
def expectedRow (r : Expense) : ParsedRow :=
  { date :=
      match jsDateParse (r.createdAt.data.take 10) with
      | some (y, m, d) => ⟨localNoonChars y m d⟩
      | none => ""
  , category := r.category
  , note := r.note
  , amount := r.amount }

/-- A concrete two-record expense list with records in two distinct months. -/
def es4w : List Expense :=
  [⟨"a", 5, Category.food, "", "2024-01-15T10:00:00.000Z"⟩,
   ⟨"b", 7, Category.sasha, "", "2024-02-15T10:00:00.000Z"⟩]

/-- The month bucket of February 2024 that `groupByPeriod es4w .month`
produces. -/
def bkt4w : PBucket := ⟨"2024-02", 7, bumpCat catZero Category.sasha 7⟩

/-! ## Helper lemmas -/

theorem readExpense_writeExpense (e : Expense) : readExpense (writeExpense e) = e := by
  cases e; rfl

theorem getExpenses_saveExpenses (l : List Expense) :
    getExpenses (saveExpenses l) = l := by
  show (l.map writeExpense).map readExpense = l
  rw [List.map_map]
  exact (List.map_congr_left fun e _ => readExpense_writeExpense e).trans l.map_id

/-! ## Claim theorems: record store -/

/-- C5. `update(id, fields)` on an id not present in the persisted list
returns the not-found signal `null` (`none`) and performs no mutation: the
storage state, hence `list()`, is unchanged. -/
theorem update_missing_id_is_noop (st : Persisted) (eid : String) (u : ExpenseUpdate)
    (h : ∀ e ∈ getExpenses st, e.id ≠ eid) :
    updateExpense eid u st = (none, st) := by
  have hnone : (getExpenses st).findIdx? (fun e => e.id == eid) = none := by
    rw [List.findIdx?_eq_none_iff]
    intro x hx
    simpa using h x hx
  simp only [updateExpense, hnone]

/-- C5 witness: updating a concrete one-record store under an unknown id
returns `none` and leaves the state intact. -/
theorem update_missing_id_is_noop_witness :
    updateExpense "b" ⟨some 5, none, none⟩
        (Persisted.records [⟨"a", 1, .food, some "x", "t"⟩])
      = (none, Persisted.records [⟨"a", 1, .food, some "x", "t"⟩]) :=
  update_missing_id_is_noop _ _ _ (by decide)

/-- C6. `update(id, {amount: 5})` on a persisted list containing the id
changes only that record's amount: the returned record and the persisted
record at the same position have the old `id`, `createdAt`, `category` and
`note`, and every other position of the list is untouched. -/
theorem update_amount_frame (st : Persisted) (eid : String) (i : Nat)
    (h : (getExpenses st).findIdx? (fun e => e.id == eid) = some i) :
    ∃ old, (getExpenses st)[i]? = some old ∧ old.id = eid ∧
      (updateExpense eid ⟨some 5, none, none⟩ st).1 = some { old with amount := 5 } ∧
      getExpenses (updateExpense eid ⟨some 5, none, none⟩ st).2
        = (getExpenses st).set i { old with amount := 5 } ∧
      (∀ j, j ≠ i →
        (getExpenses (updateExpense eid ⟨some 5, none, none⟩ st).2)[j]?
          = (getExpenses st)[j]?) ∧
      (getExpenses (updateExpense eid ⟨some 5, none, none⟩ st).2)[i]?
          = some { old with amount := 5 } ∧
      Expense.id { old with amount := 5 } = old.id ∧
      Expense.createdAt { old with amount := 5 } = old.createdAt ∧
      Expense.category { old with amount := 5 } = old.category ∧
      Expense.note { old with amount := 5 } = old.note := by
  obtain ⟨hi, hp, -⟩ := List.findIdx?_eq_some_iff_getElem.mp h
  refine ⟨(getExpenses st)[i], by simp, by simpa using hp, ?_⟩
  have hgetD : (getExpenses st).getD i defaultExpense = (getExpenses st)[i] := by
    simp [List.getD_eq_getElem?_getD, List.getElem?_eq_getElem hi]
  have happ : applyUpdate (getExpenses st)[i] ⟨some 5, none, none⟩
      = { (getExpenses st)[i] with amount := 5 } := rfl
  refine ⟨?_, ?_, ?_, ?_, rfl, rfl, rfl, rfl⟩
  · simp only [updateExpense, h, hgetD, happ]
  · simp only [updateExpense, h, hgetD, happ, getExpenses_saveExpenses]
  · intro j hj
    simp only [updateExpense, h, hgetD, happ, getExpenses_saveExpenses]
    simp [List.getElem?_set, Ne.symm hj]
  · simp only [updateExpense, h, hgetD, happ, getExpenses_saveExpenses]
    simp [List.getElem?_set, hi]

/-- C6 witness: a concrete two-record store, update of the second record. -/
theorem update_amount_frame_witness :
    ∃ old,
      (getExpenses (Persisted.records
          [⟨"a", 1, .food, some "x", "t1"⟩, ⟨"b", 2, .sasha, some "y", "t2"⟩]))[1]?
        = some old ∧ old.id = "b" ∧
      (updateExpense "b" ⟨some 5, none, none⟩ (Persisted.records
          [⟨"a", 1, .food, some "x", "t1"⟩, ⟨"b", 2, .sasha, some "y", "t2"⟩])).1
        = some { old with amount := 5 } ∧
      getExpenses (updateExpense "b" ⟨some 5, none, none⟩ (Persisted.records
          [⟨"a", 1, .food, some "x", "t1"⟩, ⟨"b", 2, .sasha, some "y", "t2"⟩])).2
        = (getExpenses (Persisted.records
            [⟨"a", 1, .food, some "x", "t1"⟩, ⟨"b", 2, .sasha, some "y", "t2"⟩])).set 1
              { old with amount := 5 } ∧
      (∀ j, j ≠ 1 →
        (getExpenses (updateExpense "b" ⟨some 5, none, none⟩ (Persisted.records
            [⟨"a", 1, .food, some "x", "t1"⟩, ⟨"b", 2, .sasha, some "y", "t2"⟩])).2)[j]?
          = (getExpenses (Persisted.records
              [⟨"a", 1, .food, some "x", "t1"⟩, ⟨"b", 2, .sasha, some "y", "t2"⟩]))[j]?) ∧
      (getExpenses (updateExpense "b" ⟨some 5, none, none⟩ (Persisted.records
          [⟨"a", 1, .food, some "x", "t1"⟩, ⟨"b", 2, .sasha, some "y", "t2"⟩])).2)[1]?
        = some { old with amount := 5 } ∧
      Expense.id { old with amount := 5 } = old.id ∧
      Expense.createdAt { old with amount := 5 } = old.createdAt ∧
      Expense.category { old with amount := 5 } = old.category ∧
      Expense.note { old with amount := 5 } = old.note :=
  update_amount_frame _ "b" 1 (by decide)

/-- C7. `getExpenses` never yields null: the absent, corrupt and non-array
persisted states all give the empty list without raising, and a stored
record whose `note` field is absent is read back with `note` normalized to
the empty string, in place. -/
theorem getExpenses_never_null :
    (getExpenses .absent = [] ∧ getExpenses .corrupt = [] ∧ getExpenses .nonArray = []) ∧
    ∀ (l : List StoredExpense) (i : Nat) (s : StoredExpense),
      l[i]? = some s →
      (getExpenses (.records l))[i]? = some (readExpense s) ∧
      (s.note = none → (readExpense s).note = "") := by
  refine ⟨⟨rfl, rfl, rfl⟩, fun l i s hs => ⟨?_, fun hn => ?_⟩⟩
  · show (l.map readExpense)[i]? = some (readExpense s)
    rw [List.getElem?_map, hs, Option.map_some']
  · simp [readExpense, hn]

/-- C7 witness: a concrete legacy payload with a missing note. -/
theorem getExpenses_never_null_witness :
    (getExpenses (.records [⟨"a", 1, .food, none, "t"⟩]))[0]?
        = some (readExpense ⟨"a", 1, .food, none, "t"⟩) ∧
      ((⟨"a", 1, .food, none, "t"⟩ : StoredExpense).note = none →
        (readExpense ⟨"a", 1, .food, none, "t"⟩).note = "") :=
  getExpenses_never_null.2 [⟨"a", 1, .food, none, "t"⟩] 0 _ (by decide)

/-- C3. `importExpenses` on a non-empty input persists a permutation of the
freshly built records plus the existing list, sorted by `createdAt`
descending, and returns the input length; row `i` becomes a record carrying
the `i`-th generated id and the row's own `amount`, `category`, `note` and
`createdAt`. On the empty input it returns 0 and the storage state is
untouched. -/
theorem importExpenses_spec (gen : Nat → String) (timeOf : String → Int)
    (items : List ImportItem) (st : Persisted) :
    (items = [] → importExpenses gen timeOf items st = (0, st)) ∧
    (items ≠ [] →
      (importExpenses gen timeOf items st).1 = items.length ∧
      (getExpenses (importExpenses gen timeOf items st).2).Perm
        (mkNewExpenses gen items ++ getExpenses st) ∧
      List.Pairwise (createdDesc timeOf)
        (getExpenses (importExpenses gen timeOf items st).2) ∧
      ∀ i it, items[i]? = some it →
        (mkNewExpenses gen items)[i]? = some (mkImported (gen i) it)) := by
  constructor
  · rintro rfl
    rfl
  · intro hne
    have hlen : ¬ items.length = 0 := by simpa [List.length_eq_zero] using hne
    have hout : importExpenses gen timeOf items st
        = ((mkNewExpenses gen items).length,
           saveExpenses (((mkNewExpenses gen items) ++ getExpenses st).insertionSort
             (createdDesc timeOf))) := by
      unfold importExpenses
      rw [if_neg hlen]
    haveI : IsTotal Expense (createdDesc timeOf) :=
      ⟨fun a b => le_total (timeOf b.createdAt) (timeOf a.createdAt)⟩
    haveI : IsTrans Expense (createdDesc timeOf) :=
      ⟨fun _ _ _ h1 h2 => le_trans h2 h1⟩
    refine ⟨?_, ?_, ?_, ?_⟩
    · rw [hout]
      simp [mkNewExpenses]
    · rw [hout, getExpenses_saveExpenses]
      exact List.perm_insertionSort _ _
    · rw [hout, getExpenses_saveExpenses]
      exact List.sorted_insertionSort _ _
    · intro i it hit
      show (items.enum.map _)[i]? = _
      rw [List.getElem?_map, List.getElem?_enum, hit]
      rfl

/-- C3 witness: two concrete rows imported over an empty store, with a
concrete id generator and clock. -/
theorem importExpenses_spec_witness :
    (importExpenses (fun n => if n = 0 then "u0" else "u1")
        (fun s => (s.length : Int))
        [⟨1, .food, "a", "t-one"⟩, ⟨2, .sasha, "b", "t2"⟩] .absent).1 = 2 ∧
    (getExpenses (importExpenses (fun n => if n = 0 then "u0" else "u1")
        (fun s => (s.length : Int))
        [⟨1, .food, "a", "t-one"⟩, ⟨2, .sasha, "b", "t2"⟩] .absent).2).Perm
      (mkNewExpenses (fun n => if n = 0 then "u0" else "u1")
        [⟨1, .food, "a", "t-one"⟩, ⟨2, .sasha, "b", "t2"⟩] ++ getExpenses .absent) ∧
    List.Pairwise (createdDesc (fun s => (s.length : Int)))
      (getExpenses (importExpenses (fun n => if n = 0 then "u0" else "u1")
        (fun s => (s.length : Int))
        [⟨1, .food, "a", "t-one"⟩, ⟨2, .sasha, "b", "t2"⟩] .absent).2) ∧
    ∀ i it, ([⟨1, .food, "a", "t-one"⟩, ⟨2, .sasha, "b", "t2"⟩] : List ImportItem)[i]?
        = some it →
      (mkNewExpenses (fun n => if n = 0 then "u0" else "u1")
        [⟨1, .food, "a", "t-one"⟩, ⟨2, .sasha, "b", "t2"⟩])[i]?
        = some (mkImported (if i = 0 then "u0" else "u1") it) :=
  (importExpenses_spec (fun n => if n = 0 then "u0" else "u1")
    (fun s => (s.length : Int))
    [⟨1, .food, "a", "t-one"⟩, ⟨2, .sasha, "b", "t2"⟩] .absent).2 (by decide)

/-! ## Helper lemmas: tokenizer and row parsing -/

theorem mem_trimL {c : Char} {l : List Char} (h : c ∈ trimL l) : c ∈ l := by
  unfold trimL at h
  rw [List.mem_reverse] at h
  have h1 := (List.dropWhile_sublist _).subset h
  rw [List.mem_reverse] at h1
  exact (List.dropWhile_sublist _).subset h1

theorem parseCSVLineAux_no_quote (l : List Char) :
    ∀ (cur : List Char) (inQ : Bool), '"' ∉ cur →
      ∀ f ∈ parseCSVLineAux l cur inQ, '"' ∉ f := by
  induction l with
  | nil =>
    intro cur inQ hcur f hf
    simp only [parseCSVLineAux, List.mem_singleton] at hf
    subst hf
    exact fun hc => hcur (mem_trimL hc)
  | cons c cs ih =>
    intro cur inQ hcur f hf
    unfold parseCSVLineAux at hf
    by_cases h1 : c = '"'
    · rw [if_pos h1] at hf
      exact ih cur (!inQ) hcur f hf
    · rw [if_neg h1] at hf
      by_cases h2 : c = ',' ∧ inQ = false
      · rw [if_pos h2] at hf
        rcases List.mem_cons.mp hf with hfe | hfr
        · subst hfe
          exact fun hc => hcur (mem_trimL hc)
        · exact ih [] inQ (by simp) f hfr
      · rw [if_neg h2] at hf
        by_cases h3 : c = '\n' ∨ c = '\r'
        · rw [if_pos h3] at hf
          exact ih cur inQ hcur f hf
        · rw [if_neg h3] at hf
          refine ih (cur ++ [c]) inQ ?_ f hf
          intro hc
          rcases List.mem_append.mp hc with h | h
          · exact hcur h
          · rw [List.mem_singleton] at h
            exact h1 h.symm

theorem mem_joinComma {c : Char} {ls : List (List Char)} (h : c ∈ joinComma ls) :
    c = ',' ∨ ∃ x ∈ ls, c ∈ x := by
  induction ls with
  | nil => simp [joinComma] at h
  | cons x xs ih =>
    match xs, h with
    | [], h => exact Or.inr ⟨x, by simp, h⟩
    | y :: ys, h =>
      rcases List.mem_append.mp h with hx | hrest
      · exact Or.inr ⟨x, by simp, hx⟩
      · rcases List.mem_cons.mp hrest with hc | htail
        · exact Or.inl hc
        · rcases ih htail with hc | ⟨z, hz, hcz⟩
          · exact Or.inl hc
          · exact Or.inr ⟨z, List.mem_cons_of_mem _ hz, hcz⟩

theorem mem_stripEdgeQuotes {c : Char} {l : List Char} (h : c ∈ stripEdgeQuotes l) :
    c ∈ l := by
  unfold stripEdgeQuotes at h
  have step : ∀ l1 : List Char,
      c ∈ (if l1.getLast? = some '"' then l1.dropLast else l1) → c ∈ l1 := by
    intro l1 h1
    split at h1
    · exact (List.dropLast_sublist l1).subset h1
    · exact h1
  have h2 := step _ h
  split at h2
  · exact (List.tail_sublist l).subset h2
  · exact h2

theorem jsDateParse_valid {l : List Char} {y m d : Nat}
    (h : jsDateParse l = some (y, m, d)) : dateOK y m d := by
  unfold jsDateParse at h
  split at h
  · dsimp only at h
    split_ifs at h with h1 h2
    · have h' := Option.some.inj h
      obtain ⟨hy, hmd⟩ := Prod.mk.inj h'
      obtain ⟨hm, hd⟩ := Prod.mk.inj hmd
      subst hy; subst hm; subst hd
      exact h2
  · exact absurd h (by simp)

/-- Characterization of a successful `rowOfLine`: how each emitted field is
computed from the tokens, plus the acceptance conditions. -/
theorem rowOfLine_eq_some {l : List Char} {r : ParsedRow} (h : rowOfLine l = some r) :
    ∃ y m d,
      jsDateParse (trimL ((parseCSVLine l).headD [])) = some (y, m, d) ∧
      dateOK y m d ∧
      4 ≤ (parseCSVLine l).length ∧
      r.date = ⟨localNoonChars y m d⟩ ∧
      r.category = categoryOfStr (toLowerL (trimL ((parseCSVLine l).getD 1 []))) ∧
      r.note = (if (stripEdgeQuotes (trimL (joinComma
                    (((parseCSVLine l).drop 2).dropLast)))).isEmpty
                then "Imported"
                else ⟨stripEdgeQuotes (trimL (joinComma
                    (((parseCSVLine l).drop 2).dropLast)))⟩) ∧
      r.amount = jsAmount ((parseCSVLine l).getD ((parseCSVLine l).length - 1) []) ∧
      0 < r.amount := by
  unfold rowOfLine at h
  dsimp only at h
  split at h
  · exact absurd h (by simp)
  · rename_i hlen
    split at h
    · exact absurd h (by simp)
    · rename_i y m d hdate
      split at h
      · exact absurd h (by simp)
      · rename_i hamt
        have hr := Option.some.inj h
        refine ⟨y, m, d, hdate, jsDateParse_valid hdate, by omega, ?_, ?_, ?_, ?_, ?_⟩
        · rw [← hr]
        · rw [← hr]
        · rw [← hr]
        · rw [← hr]
        · rw [← hr]
          exact not_le.mp hamt

theorem mem_parseCSV {text : String} {r : ParsedRow} (h : r ∈ parseCSV text) :
    ∃ l, rowOfLine l = some r := by
  unfold parseCSV at h
  rcases List.mem_filterMap.mp h with ⟨l, -, hl⟩
  exact ⟨l, hl⟩

/-! ## Claim theorems: decoder guarantees -/

/-- C10. The tokenizer deletes every double quote: no field it returns
contains `'"'`, and consequently no note emitted by `parseCSV` contains a
double quote (so the doubled-quote escaping of `exportToCSV` is never
un-escaped on decode). -/
theorem tokenizer_strips_quotes :
    (∀ l f, f ∈ parseCSVLine l → '"' ∉ f) ∧
    (∀ text r, r ∈ parseCSV text → '"' ∉ r.note.data) := by
  have part1 : ∀ l f, f ∈ parseCSVLine l → '"' ∉ f := fun l f hf =>
    parseCSVLineAux_no_quote l [] false (by simp) f hf
  refine ⟨part1, fun text r hr => ?_⟩
  obtain ⟨l, hl⟩ := mem_parseCSV hr
  obtain ⟨y, m, d, -, -, -, -, -, hnote, -, -⟩ := rowOfLine_eq_some hl
  rw [hnote]
  split
  · decide
  · intro hc
    rcases mem_joinComma (mem_trimL (mem_stripEdgeQuotes hc)) with hcomma | ⟨x, hx, hcx⟩
    · exact absurd hcomma (by decide)
    · have hxp : x ∈ parseCSVLine l :=
        (List.Sublist.trans (List.dropLast_sublist _) (List.drop_sublist _ _)).subset hx
      exact part1 l x hxp hcx

/-- C10 witness: the tokenizer on a concrete quoted line, and the quote-free
field it yields. -/
theorem tokenizer_strips_quotes_witness :
    "ab".data ∈ parseCSVLine ("a\"b".data) ∧ '"' ∉ "ab".data :=
  ⟨by decide, tokenizer_strips_quotes.1 ("a\"b".data) ("ab".data) (by decide)⟩

/-- C8. `parseCSV` drops, without raising, every data line with fewer than 4
tokens, every row whose date token does not parse to a valid calendar date,
and every row whose computed amount is non-positive; consequently every
emitted row has a positive amount and a valid date normalized to local noon.
(Every modelled operation is a total function: no per-row condition can
raise.) -/
theorem parseCSV_row_filters :
    (∀ l, (parseCSVLine l).length < 4 → rowOfLine l = none) ∧
    (∀ l, jsDateParse (trimL ((parseCSVLine l).headD [])) = none → rowOfLine l = none) ∧
    (∀ l, jsAmount ((parseCSVLine l).getD ((parseCSVLine l).length - 1) []) ≤ 0 →
      rowOfLine l = none) ∧
    (∀ text r, r ∈ parseCSV text →
      0 < r.amount ∧ ∃ y m d, dateOK y m d ∧ r.date = ⟨localNoonChars y m d⟩) := by
  refine ⟨fun l hlen => ?_, fun l hdate => ?_, fun l hamt => ?_, fun text r hr => ?_⟩
  · unfold rowOfLine
    rw [if_pos hlen]
  · cases hrow : rowOfLine l with
    | none => rfl
    | some r =>
      obtain ⟨y, m, d, hd, -⟩ := rowOfLine_eq_some hrow
      rw [hdate] at hd
      exact absurd hd (by simp)
  · cases hrow : rowOfLine l with
    | none => rfl
    | some r =>
      obtain ⟨y, m, d, -, -, -, -, -, -, hamt', hpos⟩ := rowOfLine_eq_some hrow
      rw [hamt'] at hpos
      exact absurd hamt (not_le.mpr hpos)
  · obtain ⟨l, hl⟩ := mem_parseCSV hr
    obtain ⟨y, m, d, -, hok, -, hdate, -, -, -, hpos⟩ := rowOfLine_eq_some hl
    exact ⟨hpos, y, m, d, hok, hdate⟩

/-- C8 witness: a concrete short line is skipped, a concrete bad-date line
and non-positive-amount line are dropped, and a concrete accepted row has a
positive amount and a valid noon-normalized date. -/
theorem parseCSV_row_filters_witness :
    rowOfLine "garbage,garbage".data = none ∧
    rowOfLine "nodate,food,x,10".data = none ∧
    rowOfLine "2024-01-15,food,x,0".data = none ∧
    (0 < ((⟨"2024-01-15T12:00:00.000Z", .food, "x", 10⟩ : ParsedRow)).amount ∧
      ∃ y m d, dateOK y m d ∧
        (⟨"2024-01-15T12:00:00.000Z", .food, "x", 10⟩ : ParsedRow).date
          = ⟨localNoonChars y m d⟩) :=
  ⟨parseCSV_row_filters.1 _ (by decide),
   parseCSV_row_filters.2.1 _ (by decide),
   parseCSV_row_filters.2.2.1 _ (by decide),
   parseCSV_row_filters.2.2.2 "2024-01-15,food,x,10" _ (by decide)⟩

/-! ## Claim C2: how the note is assembled from the tokens -/

/-- C2 counterexample: on the accepted line `2024-01-15,food,a,b,80` the
emitted note is `a,b`, while joining the tokens from position 1 through the
last gives `food,a,b,80`; the claim's formula disagrees with the code. -/
theorem note_position_one_claim_refuted :
    (parseCSV "2024-01-15,food,a,b,80").map ParsedRow.note = ["a,b"] ∧
    noteFromTokensClaimed (parseCSVLine ("2024-01-15,food,a,b,80".data)) = "food,a,b,80" ∧
    ("a,b" : String) ≠ "food,a,b,80" := by
  decide

/-- C2 (amended). For every data line that `parseCSV` accepts, the emitted
note equals the tokens from position 2 through the second-to-last token
joined back by commas, trimmed, with enclosing quote characters stripped,
the empty result replaced by "Imported". -/
theorem note_from_middle_tokens {l : List Char} {r : ParsedRow}
    (h : rowOfLine l = some r) :
    r.note = noteFromTokens (parseCSVLine l) := by
  obtain ⟨y, m, d, -, -, -, -, -, hnote, -, -⟩ := rowOfLine_eq_some h
  have hseg : ((parseCSVLine l).take ((parseCSVLine l).length - 1)).drop 2
      = ((parseCSVLine l).drop 2).dropLast := by
    rw [List.dropLast_eq_take, List.drop_take, List.length_drop,
      Nat.sub_sub, Nat.sub_sub, Nat.add_comm 1 2]
  rw [hnote, noteFromTokens, hseg]

/-- C2 witness: the amended rule evaluated on the concrete accepted line
`2024-01-15,food,a,b,80`. -/
theorem note_from_middle_tokens_witness :
    rowOfLine ("2024-01-15,food,a,b,80".data)
        = some ⟨"2024-01-15T12:00:00.000Z", .food, "a,b", 80⟩ ∧
      (⟨"2024-01-15T12:00:00.000Z", .food, "a,b", 80⟩ : ParsedRow).note
        = noteFromTokens (parseCSVLine ("2024-01-15,food,a,b,80".data)) :=
  ⟨by decide, note_from_middle_tokens (by decide)⟩

/-! ## Claim C9: the concrete header + one data line example -/

/-- C9. `parseCSV` on the two-line text
`date,category,note,amount` / `2024-01-15,food,Lunch,80` yields exactly one
row: category `food`, note `Lunch`, amount `80`, date at local noon on
2024-01-15 (the first line contains both "date" and "category" lower-cased,
so it is recognized as a header and skipped). -/
theorem parseCSV_header_example :
    parseCSV "date,category,note,amount\n2024-01-15,food,Lunch,80"
      = [⟨"2024-01-15T12:00:00.000Z", .food, "Lunch", 80⟩] := by
  decide

/-! ## Claim C1: helper lemmas about digits and numerals -/

theorem charVal_digitChar {v : Nat} (h : v < 10) : charVal (digitChar v) = v := by
  interval_cases v <;> decide

theorem digitChar_isDigit {v : Nat} (h : v < 10) : (digitChar v).isDigit = true := by
  interval_cases v <;> decide

theorem isDigit_not_ws {c : Char} (h : c.isDigit = true) : c.isWhitespace = false := by
  unfold Char.isDigit at h
  rw [Bool.and_eq_true, decide_eq_true_eq, decide_eq_true_eq] at h
  unfold Char.isWhitespace
  by_contra hw
  rw [Bool.not_eq_false, Bool.or_eq_true, Bool.or_eq_true, Bool.or_eq_true] at hw
  simp only [decide_eq_true_eq] at hw
  rcases hw with ((hc | hc) | hc) | hc <;> (subst hc; exact absurd h.1 (by decide))

theorem isDigit_ne {c : Char} (h : c.isDigit = true) :
    c ≠ '-' ∧ c ≠ '.' ∧ c ≠ ',' ∧ c ≠ '"' ∧ c ≠ '\n' ∧ c ≠ '\r' := by
  refine ⟨?_, ?_, ?_, ?_, ?_, ?_⟩ <;>
    { intro hc; rw [hc] at h; exact absurd h (by decide) }

theorem valDigits_foldl_acc (t : List Char) : ∀ a : Nat,
    t.foldl (fun a c => a * 10 + charVal c) a = a * 10 ^ t.length + valDigits t := by
  induction t with
  | nil =>
    intro a
    simp [valDigits]
  | cons d t ih =>
    intro a
    have hv : valDigits (d :: t) = charVal d * 10 ^ t.length + valDigits t := by
      show List.foldl _ 0 (d :: t) = _
      rw [List.foldl_cons, ih]
      ring
    rw [List.foldl_cons, ih, hv, List.length_cons, pow_succ]
    ring

theorem digitsFix_length (k n : Nat) : (digitsFix k n).length = k := by
  induction k generalizing n with
  | zero => rfl
  | succ k ih => simp [digitsFix, ih]

theorem valDigits_digitsFix (k n : Nat) : valDigits (digitsFix k n) = n % 10 ^ k := by
  induction k with
  | zero => simp [digitsFix, valDigits, Nat.mod_one]
  | succ k ih =>
    show valDigits (digitChar (n / 10 ^ k % 10) :: digitsFix k n) = n % 10 ^ (k + 1)
    have hv : valDigits (digitChar (n / 10 ^ k % 10) :: digitsFix k n)
        = charVal (digitChar (n / 10 ^ k % 10)) * 10 ^ k + valDigits (digitsFix k n) := by
      show List.foldl _ 0 _ = _
      rw [List.foldl_cons, valDigits_foldl_acc, digitsFix_length]
      ring
    rw [hv, charVal_digitChar (Nat.mod_lt _ (by norm_num)), ih, pow_succ, Nat.mod_mul]
    ring

theorem digitsFix_all_digits (k n : Nat) :
    ∀ c ∈ digitsFix k n, c.isDigit = true := by
  induction k generalizing n with
  | zero => simp [digitsFix]
  | succ k ih =>
    intro c hc
    rcases List.mem_cons.mp hc with hce | hct
    · subst hce
      exact digitChar_isDigit (Nat.mod_lt _ (by norm_num))
    · exact ih n c hct

theorem natToStrAux_all_digits (fuel n : Nat) :
    ∀ c ∈ natToStrAux fuel n, c.isDigit = true := by
  induction fuel generalizing n with
  | zero => simp [natToStrAux]
  | succ fuel ih =>
    intro c hc
    unfold natToStrAux at hc
    split at hc
    · rename_i h10
      rw [List.mem_singleton] at hc
      subst hc
      exact digitChar_isDigit h10
    · rcases List.mem_append.mp hc with hl | hr
      · exact ih _ c hl
      · rw [List.mem_singleton] at hr
        subst hr
        exact digitChar_isDigit (Nat.mod_lt _ (by norm_num))

theorem natToStr_all_digits (n : Nat) : ∀ c ∈ natToStr n, c.isDigit = true :=
  natToStrAux_all_digits (n + 1) n

theorem natToStrAux_ne_nil (fuel n : Nat) (h : 0 < fuel) : natToStrAux fuel n ≠ [] := by
  cases fuel with
  | zero => omega
  | succ fuel =>
    unfold natToStrAux
    split
    · simp
    · simp

theorem natToStr_ne_nil (n : Nat) : natToStr n ≠ [] :=
  natToStrAux_ne_nil (n + 1) n (Nat.succ_pos n)

theorem valDigits_natToStrAux (fuel n : Nat) (h : n < fuel) :
    valDigits (natToStrAux fuel n) = n := by
  induction fuel generalizing n with
  | zero => omega
  | succ fuel ih =>
    unfold natToStrAux
    split
    · rename_i h10
      show valDigits [digitChar n] = n
      show List.foldl _ 0 _ = n
      rw [List.foldl_cons, List.foldl_nil, charVal_digitChar h10]
      omega
    · rename_i h10
      push_neg at h10
      have hdiv : n / 10 < fuel := by
        have h1 : n / 10 < n := Nat.div_lt_self (by omega) (by norm_num)
        omega
      show List.foldl _ 0 _ = n
      rw [List.foldl_append]
      have hbase : List.foldl (fun a c => a * 10 + charVal c) 0 (natToStrAux fuel (n / 10))
          = n / 10 := ih (n / 10) hdiv
      rw [hbase, List.foldl_cons, List.foldl_nil,
        charVal_digitChar (Nat.mod_lt _ (by norm_num))]
      omega

theorem valDigits_natToStr (n : Nat) : valDigits (natToStr n) = n :=
  valDigits_natToStrAux (n + 1) n (Nat.lt_succ_self n)

theorem isoDateChars_length (y m d : Nat) : (isoDateChars y m d).length = 10 := by
  simp [isoDateChars, pad4, pad2, digitsFix]

/-- Parsing the exported `YYYY-MM-DD` block recovers the date. -/
theorem jsDateParse_iso {y m d : Nat} (hy : y ≤ 9999) (hm : m < 100) (hd : d < 100)
    (hok : dateOK y m d) : jsDateParse (isoDateChars y m d) = some (y, m, d) := by
  have e : isoDateChars y m d
      = [digitChar (y / 1000 % 10), digitChar (y / 100 % 10), digitChar (y / 10 % 10),
         digitChar (y / 1 % 10), '-', digitChar (m / 10 % 10), digitChar (m / 1 % 10),
         '-', digitChar (d / 10 % 10), digitChar (d / 1 % 10)] := by
    simp [isoDateChars, pad4, pad2, digitsFix]
  rw [e]
  have hdig : ∀ v : Nat, (digitChar (v % 10)).isDigit = true := fun v =>
    digitChar_isDigit (Nat.mod_lt _ (by norm_num))
  simp only [jsDateParse]
  rw [if_pos (by
    exact ⟨trivial, trivial, hdig _, hdig _, hdig _, hdig _, hdig _, hdig _, hdig _, hdig _⟩)]
  have hcv : ∀ v : Nat, charVal (digitChar (v % 10)) = v % 10 := fun v =>
    charVal_digitChar (Nat.mod_lt _ (by norm_num))
  have hy' : valDigits [digitChar (y / 1000 % 10), digitChar (y / 100 % 10),
      digitChar (y / 10 % 10), digitChar (y / 1 % 10)] = y := by
    show List.foldl _ 0 _ = y
    simp only [List.foldl_cons, List.foldl_nil, hcv]
    omega
  have hm' : valDigits [digitChar (m / 10 % 10), digitChar (m / 1 % 10)] = m := by
    show List.foldl _ 0 _ = m
    simp only [List.foldl_cons, List.foldl_nil, hcv]
    omega
  have hd' : valDigits [digitChar (d / 10 % 10), digitChar (d / 1 % 10)] = d := by
    show List.foldl _ 0 _ = d
    simp only [List.foldl_cons, List.foldl_nil, hcv]
    omega
  rw [hy', hm', hd', if_pos hok]

/-- The exported amount string of a positive integral amount parses back to
the same amount. -/
theorem jsAmount_intToStr {a : Int} (ha : 0 < a) : jsAmount (intToStr a) = a := by
  have hnn : ¬ a < 0 := by omega
  have hstr : intToStr a = natToStr a.toNat := by
    unfold intToStr
    rw [if_neg hnn]
  rw [hstr]
  set n := a.toNat with hn
  have hdigits := natToStr_all_digits n
  have hkeep : keepAmountChars (natToStr n) = natToStr n := by
    unfold keepAmountChars
    exact List.filter_eq_self.mpr fun c hc => by
      rw [hdigits c hc]
      simp
  have hne : natToStr n ≠ [] := natToStr_ne_nil n
  obtain ⟨c, t, hct⟩ := List.exists_cons_of_ne_nil hne
  have hcdigit : c.isDigit = true := hdigits c (by rw [hct]; exact List.mem_cons_self c t)
  have hne' := isDigit_ne hcdigit
  unfold jsAmount
  rw [hkeep]
  have hfrac : parseFloatFrac (natToStr n) = some ((n : Int), 1) := by
    unfold parseFloatFrac
    have hhead : (natToStr n).head? = some c := by rw [hct]; rfl
    have hneg : ¬ ((natToStr n).head? = some '-') := by
      rw [hhead]
      simp [hne'.1]
    rw [if_neg hneg, if_neg hneg]
    dsimp only
    have htake : (natToStr n).takeWhile Char.isDigit = natToStr n :=
      List.takeWhile_eq_self_iff.mpr hdigits
    have hdrop : (natToStr n).dropWhile Char.isDigit = [] :=
      List.dropWhile_eq_nil_iff.mpr hdigits
    rw [htake, hdrop]
    have hds : natToStr n ≠ [] := hne
    rw [if_neg (by simp)]
    rw [if_neg (by simpa using hds)]
    rw [valDigits_natToStr]
    simp
  rw [hfrac]
  show jsRoundFrac (n : Int) 1 = a
  unfold jsRoundFrac
  rw [Int.fdiv_eq_ediv _ (by omega)]
  omega

/-! ## Claim C1: helper lemmas about the tokenizer on exported lines -/

theorem parseCSVLineAux_quote (rest cur : List Char) (inQ : Bool) :
    parseCSVLineAux ('"' :: rest) cur inQ = parseCSVLineAux rest cur (!inQ) := rfl

theorem parseCSVLineAux_comma (rest cur : List Char) :
    parseCSVLineAux (',' :: rest) cur false = trimL cur :: parseCSVLineAux rest [] false := rfl

theorem parseCSVLineAux_step (c : Char) (rest cur : List Char) (inQ : Bool)
    (hq : c ≠ '"') (hnl : c ≠ '\n') (hcr : c ≠ '\r') (hcm : inQ = true ∨ c ≠ ',') :
    parseCSVLineAux (c :: rest) cur inQ = parseCSVLineAux rest (cur ++ [c]) inQ := by
  have h2 : ¬ (c = ',' ∧ inQ = false) := by
    rintro ⟨hc, hin⟩
    rcases hcm with h | h
    · rw [h] at hin
      cases hin
    · exact h hc
  have h3 : ¬ (c = '\n' ∨ c = '\r') := by
    rintro (h | h)
    · exact hnl h
    · exact hcr h
  show (if c = '"' then parseCSVLineAux rest cur (!inQ)
    else if c = ',' ∧ inQ = false then trimL cur :: parseCSVLineAux rest [] inQ
    else if c = '\n' ∨ c = '\r' then parseCSVLineAux rest cur inQ
    else parseCSVLineAux rest (cur ++ [c]) inQ) = parseCSVLineAux rest (cur ++ [c]) inQ
  rw [if_neg hq, if_neg h2, if_neg h3]

theorem parseCSVLineAux_seg (f : List Char) (inQ : Bool) :
    ∀ rest cur, (∀ c ∈ f, c ≠ '"' ∧ c ≠ '\n' ∧ c ≠ '\r' ∧ (inQ = true ∨ c ≠ ',')) →
      parseCSVLineAux (f ++ rest) cur inQ = parseCSVLineAux rest (cur ++ f) inQ := by
  induction f with
  | nil =>
    intro rest cur _
    simp
  | cons c f ih =>
    intro rest cur h
    obtain ⟨hq, hnl, hcr, hcm⟩ := h c (List.mem_cons_self c f)
    rw [List.cons_append, parseCSVLineAux_step c (f ++ rest) cur inQ hq hnl hcr hcm,
      ih rest (cur ++ [c]) (fun x hx => h x (List.mem_cons_of_mem c hx)),
      List.append_assoc]
    rfl

theorem parseCSVLineAux_last (f cur : List Char)
    (h : ∀ c ∈ f, c ≠ '"' ∧ c ≠ '\n' ∧ c ≠ '\r' ∧ (false = true ∨ c ≠ ',')) :
    parseCSVLineAux f cur false = [trimL (cur ++ f)] := by
  have hseg := parseCSVLineAux_seg f false [] cur h
  rw [List.append_nil] at hseg
  rw [hseg]
  rfl

theorem dropWhile_eq_self_of_head {p : Char → Bool} {l : List Char}
    (h : ∀ c, l.head? = some c → p c = false) : l.dropWhile p = l := by
  cases l with
  | nil => rfl
  | cons c t =>
    rw [List.dropWhile_cons, h c rfl]
    simp

theorem trimL_eq_self {l : List Char}
    (hh : ∀ c, l.head? = some c → c.isWhitespace = false)
    (hl : ∀ c, l.getLast? = some c → c.isWhitespace = false) : trimL l = l := by
  unfold trimL
  rw [dropWhile_eq_self_of_head hh,
    dropWhile_eq_self_of_head (fun c hc => hl c (by rwa [List.head?_reverse] at hc)),
    List.reverse_reverse]

theorem trimL_ne_nil {l : List Char} {c : Char} (hc : c ∈ l)
    (hw : c.isWhitespace = false) : trimL l ≠ [] := by
  unfold trimL
  intro h
  rw [List.reverse_eq_nil_iff, List.dropWhile_eq_nil_iff] at h
  have hc' : c ∈ l.takeWhile Char.isWhitespace ++ l.dropWhile Char.isWhitespace := by
    rw [List.takeWhile_append_dropWhile]
    exact hc
  have hc1 : c ∈ l.dropWhile Char.isWhitespace := by
    rcases List.mem_append.mp hc' with h1 | h1
    · exact absurd (List.mem_takeWhile_imp h1) (by rw [hw]; simp)
    · exact h1
  exact absurd (h c (List.mem_reverse.mpr hc1)) (by rw [hw]; simp)

/-- Every character of the `YYYY-MM-DD` block is a digit or a dash. -/
theorem isoDateChars_mem {y m d : Nat} {c : Char} (hc : c ∈ isoDateChars y m d) :
    c.isDigit = true ∨ c = '-' := by
  unfold isoDateChars at hc
  rcases List.mem_append.mp hc with h | h
  · rcases List.mem_append.mp h with h | h
    · exact Or.inl (digitsFix_all_digits 4 y c h)
    · rcases List.mem_cons.mp h with h | h
      · exact Or.inr h
      · exact Or.inl (digitsFix_all_digits 2 m c h)
  · rcases List.mem_cons.mp h with h | h
    · exact Or.inr h
    · exact Or.inl (digitsFix_all_digits 2 d c h)

theorem dash_not_ws : ('-' : Char).isWhitespace = false := by decide

theorem isoDateChars_head {y m d : Nat} {c : Char}
    (hc : (isoDateChars y m d).head? = some c) : c.isDigit = true := by
  have e : (isoDateChars y m d).head? = some (digitChar (y / 10 ^ 3 % 10)) := rfl
  rw [e, Option.some.injEq] at hc
  subst hc
  exact digitChar_isDigit (Nat.mod_lt _ (by norm_num))

theorem pad2_eq (n : Nat) :
    pad2 n = [digitChar (n / 10 % 10), digitChar (n / 1 % 10)] := by
  simp [pad2, digitsFix]

theorem mem_of_getLast?_eq {l : List Char} {c : Char} (h : l.getLast? = some c) :
    c ∈ l := by
  obtain ⟨hne, hc⟩ := List.mem_getLast?_eq_getLast (show c ∈ l.getLast? from h)
  rw [hc]
  exact List.getLast_mem hne

theorem isoDateChars_last {y m d : Nat} {c : Char}
    (hc : (isoDateChars y m d).getLast? = some c) : c.isDigit = true := by
  have e : isoDateChars y m d
      = (pad4 y ++ '-' :: pad2 m ++ ['-', digitChar (d / 10 % 10)])
          ++ [digitChar (d / 1 % 10)] := by
    unfold isoDateChars
    rw [pad2_eq d]
    simp
  rw [e, List.getLast?_concat, Option.some.injEq] at hc
  subst hc
  exact digitChar_isDigit (Nat.mod_lt _ (by norm_num))

theorem trimL_of_all_digits {l : List Char} (h : ∀ c ∈ l, c.isDigit = true) :
    trimL l = l :=
  trimL_eq_self
    (fun c hc => isDigit_not_ws (h c (List.mem_of_mem_head? (by rw [hc]; rfl))))
    (fun c hc => isDigit_not_ws (h c (mem_of_getLast?_eq hc)))

theorem trimL_isoDateChars (y m d : Nat) :
    trimL (isoDateChars y m d) = isoDateChars y m d :=
  trimL_eq_self (fun _ hc => isDigit_not_ws (isoDateChars_head hc))
    (fun _ hc => isDigit_not_ws (isoDateChars_last hc))

/-- The facts about each category tag that the round trip relies on: it is
already trimmed and lower-case, it maps back to its own category, and it
contains none of the tokenizer's special characters. -/
theorem cat_facts (c : Category) :
    trimL c.toStr.data = c.toStr.data ∧ toLowerL c.toStr.data = c.toStr.data ∧
    categoryOfStr c.toStr.data = c ∧
    ∀ ch ∈ c.toStr.data, ch ≠ '"' ∧ ch ≠ ',' ∧ ch ≠ '\n' ∧ ch ≠ '\r' := by
  cases c <;> exact ⟨by decide, by decide, by decide, by decide⟩

theorem doubleQuotes_id {l : List Char} (h : '"' ∉ l) : doubleQuotes l = l := by
  induction l with
  | nil => rfl
  | cons c t ih =>
    unfold doubleQuotes
    rw [if_neg (fun hc => h (by rw [← hc]; exact List.mem_cons_self c t)),
      ih (fun hc => h (List.mem_cons_of_mem c hc))]

/-- Tokenizing one exported line of a valid record yields exactly the four
fields: date block, category tag, raw note, amount digits. -/
theorem parseCSVLine_exportLine (r : Expense) {y m d : Nat} {rest : List Char}
    (hcr : r.createdAt.data = isoDateChars y m d ++ rest)
    (hnote : noteOK r.note) (ha : 0 < r.amount) :
    parseCSVLine (exportLine r)
      = [isoDateChars y m d, r.category.toStr.data, r.note.data,
         natToStr r.amount.toNat] := by
  obtain ⟨hN0, hNtrim, hNq, hNnl, hNcr⟩ := hnote
  obtain ⟨hCtrim, -, -, hCch⟩ := cat_facts r.category
  have htake : r.createdAt.data.take 10 = isoDateChars y m d := by
    rw [hcr, ← isoDateChars_length y m d, List.take_left]
  have hM : intToStr r.amount = natToStr r.amount.toNat := by
    unfold intToStr
    rw [if_neg (by omega)]
  have hMdig := natToStr_all_digits r.amount.toNat
  have hA : ∀ c ∈ isoDateChars y m d,
      c ≠ '"' ∧ c ≠ '\n' ∧ c ≠ '\r' ∧ (false = true ∨ c ≠ ',') := by
    intro c hc
    rcases isoDateChars_mem hc with h | h
    · have := isDigit_ne h
      exact ⟨this.2.2.2.1, this.2.2.2.2.1, this.2.2.2.2.2, Or.inr this.2.2.1⟩
    · subst h
      exact ⟨by decide, by decide, by decide, Or.inr (by decide)⟩
  have hC : ∀ c ∈ r.category.toStr.data,
      c ≠ '"' ∧ c ≠ '\n' ∧ c ≠ '\r' ∧ (false = true ∨ c ≠ ',') := by
    intro c hc
    obtain ⟨h1, h2, h3, h4⟩ := hCch c hc
    exact ⟨h1, h3, h4, Or.inr h2⟩
  have hMl : ∀ c ∈ natToStr r.amount.toNat,
      c ≠ '"' ∧ c ≠ '\n' ∧ c ≠ '\r' ∧ (false = true ∨ c ≠ ',') := by
    intro c hc
    have := isDigit_ne (hMdig c hc)
    exact ⟨this.2.2.2.1, this.2.2.2.2.1, this.2.2.2.2.2, Or.inr this.2.2.1⟩
  have e1 : exportLine r
      = isoDateChars y m d ++ (',' :: (r.category.toStr.data ++ (',' ::
          (escapeNote r.note.data ++ (',' :: natToStr r.amount.toNat))))) := by
    unfold exportLine
    rw [htake, hM]
    simp [List.append_assoc]
  have hTA := trimL_isoDateChars y m d
  have hTM := trimL_of_all_digits hMdig
  unfold parseCSVLine
  rw [e1, parseCSVLineAux_seg _ false _ _ hA, List.nil_append, parseCSVLineAux_comma,
    parseCSVLineAux_seg _ false _ _ hC, List.nil_append, parseCSVLineAux_comma, hTA, hCtrim]
  by_cases hcm : ',' ∈ r.note.data
  · have hNl : ∀ c ∈ r.note.data,
        c ≠ '"' ∧ c ≠ '\n' ∧ c ≠ '\r' ∧ (true = true ∨ c ≠ ',') := by
      intro c hc
      refine ⟨fun h => hNq ?_, fun h => hNnl ?_, fun h => hNcr ?_, Or.inl rfl⟩ <;>
        (rw [← h]; exact hc)
    rw [show escapeNote r.note.data ++ ',' :: natToStr r.amount.toNat
        = '"' :: (r.note.data ++ ('"' :: (',' :: natToStr r.amount.toNat))) by
      unfold escapeNote
      rw [if_pos (List.any_eq_true.mpr ⟨',', hcm, by simp⟩), doubleQuotes_id hNq]
      simp]
    rw [parseCSVLineAux_quote, Bool.not_false, parseCSVLineAux_seg _ true _ _ hNl,
      List.nil_append, parseCSVLineAux_quote, Bool.not_true, parseCSVLineAux_comma,
      hNtrim, parseCSVLineAux_last _ _ hMl, List.nil_append, hTM]
  · have hesc : escapeNote r.note.data = r.note.data := by
      unfold escapeNote
      rw [if_neg]
      intro hany
      obtain ⟨c, hc, hor⟩ := List.any_eq_true.mp hany
      simp only [Bool.or_eq_true, decide_eq_true_eq] at hor
      rcases hor with h | h | h
      · exact hcm (by rw [← h]; exact hc)
      · exact hNq (by rw [← h]; exact hc)
      · exact hNnl (by rw [← h]; exact hc)
    have hNl : ∀ c ∈ r.note.data,
        c ≠ '"' ∧ c ≠ '\n' ∧ c ≠ '\r' ∧ (false = true ∨ c ≠ ',') := by
      intro c hc
      refine ⟨fun h => hNq ?_, fun h => hNnl ?_, fun h => hNcr ?_,
        Or.inr fun h => hcm ?_⟩ <;> (rw [← h]; exact hc)
    rw [hesc, parseCSVLineAux_seg _ false _ _ hNl, List.nil_append,
      parseCSVLineAux_comma, hNtrim, parseCSVLineAux_last _ _ hMl,
      List.nil_append, hTM]

theorem daysInMonth_le (y m : Nat) : daysInMonth y m ≤ 31 := by
  unfold daysInMonth
  split_ifs <;> omega

theorem stripEdgeQuotes_id {l : List Char} (h : '"' ∉ l) : stripEdgeQuotes l = l := by
  simp only [stripEdgeQuotes]
  rw [if_neg (fun hc : l.head? = some '"' =>
      h (List.mem_of_mem_head? (show '"' ∈ l.head? from hc))),
    if_neg (fun hc : l.getLast? = some '"' => h (mem_of_getLast?_eq hc))]

/-- Decoding one exported line of a valid record yields exactly the expected
row. -/
theorem rowOfLine_exportLine (r : Expense) (hv : validExpense r) :
    rowOfLine (exportLine r) = some (expectedRow r) := by
  obtain ⟨ha, hnote, hca⟩ := hv
  obtain ⟨y, m, d, rest, hcr, hok, hy1, hy2⟩ := hca
  have hparts := parseCSVLine_exportLine r hcr hnote ha
  obtain ⟨hN0, hNtrim, hNq, hNnl, hNcr⟩ := hnote
  obtain ⟨hCtrim, hClower, hCback, -⟩ := cat_facts r.category
  have hTA := trimL_isoDateChars y m d
  obtain ⟨hm1, hm2, hd1, hd2⟩ := hok
  have hdm := daysInMonth_le y m
  have hdate : jsDateParse (isoDateChars y m d) = some (y, m, d) :=
    jsDateParse_iso hy2 (by omega) (by omega) ⟨hm1, hm2, hd1, hd2⟩
  have hM : intToStr r.amount = natToStr r.amount.toNat := by
    unfold intToStr
    rw [if_neg (by omega)]
  have hamt : jsAmount (natToStr r.amount.toNat) = r.amount := by
    rw [← hM]
    exact jsAmount_intToStr ha
  have htake : r.createdAt.data.take 10 = isoDateChars y m d := by
    rw [hcr, ← isoDateChars_length y m d, List.take_left]
  unfold rowOfLine
  rw [hparts]
  dsimp only
  rw [if_neg (by norm_num)]
  have e0 : ([isoDateChars y m d, r.category.toStr.data, r.note.data,
      natToStr r.amount.toNat].headD []) = isoDateChars y m d := rfl
  have e1 : ([isoDateChars y m d, r.category.toStr.data, r.note.data,
      natToStr r.amount.toNat].getD 1 []) = r.category.toStr.data := rfl
  have e2 : (([isoDateChars y m d, r.category.toStr.data, r.note.data,
      natToStr r.amount.toNat].drop 2).dropLast) = [r.note.data] := rfl
  have e3 : ([isoDateChars y m d, r.category.toStr.data, r.note.data,
      natToStr r.amount.toNat].getD
        ([isoDateChars y m d, r.category.toStr.data, r.note.data,
          natToStr r.amount.toNat].length - 1) []) = natToStr r.amount.toNat := rfl
  rw [e0, e1, e2, e3, hTA, hdate, hamt]
  dsimp only
  rw [if_neg (show ¬ (r.amount ≤ 0) by omega)]
  rw [show joinComma [r.note.data] = r.note.data from rfl, hNtrim,
    stripEdgeQuotes_id hNq, hCtrim, hClower, hCback,
    if_neg (show ¬ (r.note.data.isEmpty = true) by simpa using hN0)]
  unfold expectedRow
  rw [htake, hdate]

/-! ## Claim C1: reassembling the whole text -/

theorem splitOnChar_of_not_mem {sep : Char} {l : List Char} (h : sep ∉ l) :
    splitOnChar sep l = [l] := by
  induction l with
  | nil => rfl
  | cons c t ih =>
    unfold splitOnChar
    rw [if_neg (fun hc => h (by rw [← hc]; exact List.mem_cons_self c t)),
      ih (fun hc => h (List.mem_cons_of_mem c hc))]

theorem splitOnChar_append {sep : Char} {l : List Char} (rest : List Char)
    (h : sep ∉ l) :
    splitOnChar sep (l ++ sep :: rest) = l :: splitOnChar sep rest := by
  induction l with
  | nil =>
    show splitOnChar sep (sep :: rest) = [] :: splitOnChar sep rest
    rw [splitOnChar, if_pos rfl]
  | cons c t ih =>
    rw [List.cons_append, splitOnChar,
      if_neg (fun hc => h (by rw [← hc]; exact List.mem_cons_self c t)),
      ih (fun hc => h (List.mem_cons_of_mem c hc))]

theorem splitOnChar_joinNL (x : List Char) (xs : List (List Char))
    (h : ∀ l ∈ x :: xs, ('\n' : Char) ∉ l) :
    splitOnChar '\n' (joinNL (x :: xs)) = x :: xs := by
  induction xs generalizing x with
  | nil => exact splitOnChar_of_not_mem (h x (List.mem_cons_self x []))
  | cons y ys ih =>
    show splitOnChar '\n' (x ++ '\n' :: joinNL (y :: ys)) = x :: y :: ys
    rw [splitOnChar_append _ (h x (List.mem_cons_self x _)),
      ih y (fun l hl => h l (List.mem_cons_of_mem x hl))]

theorem dropFinalCR_id {l : List Char} (h : ¬ l.getLast? = some '\r') :
    dropFinalCR l = l := by
  unfold dropFinalCR
  rw [if_neg h]

/-- No character of an exported line is a newline, and the line ends in a
digit. -/
theorem exportLine_chars (r : Expense) {y m d : Nat} {rest : List Char}
    (hcr : r.createdAt.data = isoDateChars y m d ++ rest)
    (hnote : noteOK r.note) (ha : 0 < r.amount) :
    ('\n' : Char) ∉ exportLine r ∧
    ∃ c, (exportLine r).getLast? = some c ∧ c.isDigit = true := by
  obtain ⟨hN0, -, hNq, hNnl, -⟩ := hnote
  obtain ⟨-, -, -, hCch⟩ := cat_facts r.category
  have htake : r.createdAt.data.take 10 = isoDateChars y m d := by
    rw [hcr, ← isoDateChars_length y m d, List.take_left]
  have hM : intToStr r.amount = natToStr r.amount.toNat := by
    unfold intToStr
    rw [if_neg (by omega)]
  have hMdig := natToStr_all_digits r.amount.toNat
  have hMne := natToStr_ne_nil r.amount.toNat
  constructor
  · intro hmem
    unfold exportLine at hmem
    rw [htake, hM] at hmem
    rcases List.mem_append.mp hmem with hmem | hmem
    · rcases List.mem_append.mp hmem with hmem | hmem
      · rcases List.mem_append.mp hmem with hmem | hmem
        · rcases isoDateChars_mem hmem with hdig | hdash
          · exact absurd rfl (isDigit_ne hdig).2.2.2.2.1
          · exact absurd hdash (by decide)
        · rcases List.mem_cons.mp hmem with hc | hc
          · exact absurd hc (by decide)
          · exact absurd rfl (hCch _ hc).2.2.1
      · rcases List.mem_cons.mp hmem with hc | hc
        · exact absurd hc (by decide)
        · unfold escapeNote at hc
          split at hc
          · rcases List.mem_append.mp hc with hc | hc
            · rcases List.mem_cons.mp hc with hc | hc
              · exact absurd hc (by decide)
              · rw [doubleQuotes_id hNq] at hc
                exact hNnl hc
            · rw [List.mem_singleton] at hc
              exact absurd hc (by decide)
          · exact hNnl hc
    · rcases List.mem_cons.mp hmem with hc | hc
      · exact absurd hc (by decide)
      · exact absurd rfl (isDigit_ne (hMdig _ hc)).2.2.2.2.1
  · rcases hlast : (natToStr r.amount.toNat).getLast? with - | c
    · rw [List.getLast?_eq_none_iff] at hlast
      exact absurd hlast hMne
    · refine ⟨c, ?_, hMdig c (mem_of_getLast?_eq hlast)⟩
      unfold exportLine
      rw [htake, hM, List.getLast?_append_of_ne_nil _ (by simp)]
      obtain ⟨cM, tM, hMct⟩ := List.exists_cons_of_ne_nil hMne
      rw [hMct]
      show (cM :: tM).getLast? = some c
      rw [← hMct, hlast]

theorem filterMap_eq_map_of_some {α β : Type} {f : α → Option β} {g : α → β} :
    ∀ l : List α, (∀ a ∈ l, f a = some (g a)) → l.filterMap f = l.map g := by
  intro l
  induction l with
  | nil => intro _; rfl
  | cons a t ih =>
    intro h
    rw [List.filterMap_cons, h a (List.mem_cons_self a t), List.map_cons,
      ih (fun x hx => h x (List.mem_cons_of_mem a hx))]

/-- C1 counterexample: the record
`⟨id0, 80, food, "" (empty note), 2024-01-15T08:30:00.000Z⟩` is valid as the
claim words it (amount > 0, category in the enumeration, well-formed ISO
timestamp), yet the round trip emits the note "Imported", not the record's
empty note: the claim as stated is false. -/
theorem roundtrip_claim_refuted :
    0 < (80 : Int) ∧
    (parseCSV (exportToCSV [⟨"id0", 80, .food, "", "2024-01-15T08:30:00.000Z"⟩])).map
        ParsedRow.note = ["Imported"] ∧
    [(⟨"id0", 80, .food, "", "2024-01-15T08:30:00.000Z"⟩ : Expense)].map
        Expense.note = [""] ∧
    ("Imported" : String) ≠ "" := by
  decide

/-- C1 (amended). For every list of valid records — amount > 0, category in
the closed enumeration, a well-formed ISO timestamp, and additionally a
round-trip-safe note (non-empty, no double quote, no newline or carriage
return, no surrounding whitespace) — `parseCSV (exportToCSV records)` yields
one row per record, in order, reproducing the record's amount, category and
note exactly, with the date reduced to calendar-day precision at local noon. -/
theorem csv_roundtrip (recs : List Expense) (h : ∀ r ∈ recs, validExpense r) :
    parseCSV (exportToCSV recs) = recs.map expectedRow := by
  have hnl : ∀ l ∈ ("date,category,note,amount".data :: recs.map exportLine),
      ('\n' : Char) ∉ l := by
    intro l hl
    rcases List.mem_cons.mp hl with rfl | hl
    · decide
    · obtain ⟨r, hr, rfl⟩ := List.mem_map.mp hl
      obtain ⟨ha, hnote, y, m, d, rest, hcr, -⟩ := h r hr
      exact (exportLine_chars r hcr hnote ha).1
  have hlast : ∀ l ∈ ("date,category,note,amount".data :: recs.map exportLine),
      ¬ l.getLast? = some '\r' := by
    intro l hl
    rcases List.mem_cons.mp hl with rfl | hl
    · decide
    · obtain ⟨r, hr, rfl⟩ := List.mem_map.mp hl
      obtain ⟨ha, hnote, y, m, d, rest, hcr, -⟩ := h r hr
      obtain ⟨c, hc, hcd⟩ := (exportLine_chars r hcr hnote ha).2
      rw [hc]
      intro he
      exact (isDigit_ne hcd).2.2.2.2.2 (Option.some.inj he)
  have hblank : ∀ l ∈ ("date,category,note,amount".data :: recs.map exportLine),
      (!(trimL l).isEmpty) = true := by
    intro l hl
    rcases List.mem_cons.mp hl with rfl | hl
    · decide
    · obtain ⟨r, hr, rfl⟩ := List.mem_map.mp hl
      obtain ⟨ha, hnote, y, m, d, rest, hcr, -⟩ := h r hr
      obtain ⟨c, hc, hcd⟩ := (exportLine_chars r hcr hnote ha).2
      have hne := trimL_ne_nil (mem_of_getLast?_eq hc) (isDigit_not_ws hcd)
      simpa using hne
  unfold exportToCSV parseCSV jsLines
  have hdata : (⟨joinNL ("date,category,note,amount".data :: recs.map exportLine)⟩ :
      String).data = joinNL ("date,category,note,amount".data :: recs.map exportLine) :=
    rfl
  rw [hdata, splitOnChar_joinNL _ _ hnl]
  have hmapcr : ("date,category,note,amount".data :: recs.map exportLine).map dropFinalCR
      = "date,category,note,amount".data :: recs.map exportLine :=
    (List.map_congr_left fun l hl => dropFinalCR_id (hlast l hl)).trans
      (List.map_id _)
  rw [hmapcr, List.filter_eq_self.mpr hblank]
  dsimp only
  rw [if_pos ⟨by decide, by decide⟩, List.filterMap_map]
  exact filterMap_eq_map_of_some _ fun r hr => rowOfLine_exportLine r (h r hr)

/-- C1 witness: the amended round trip evaluated on one concrete valid
record (comma in the note, timestamp with a time-of-day). -/
theorem csv_roundtrip_witness :
    parseCSV (exportToCSV [⟨"id0", 80, .food, "a, b", "2024-01-15T08:30:00.000Z"⟩])
      = [⟨"id0", 80, .food, "a, b", "2024-01-15T08:30:00.000Z"⟩].map expectedRow :=
  csv_roundtrip [⟨"id0", 80, .food, "a, b", "2024-01-15T08:30:00.000Z"⟩] (by
    intro r hr
    rw [List.mem_singleton] at hr
    subst hr
    refine ⟨by decide, ⟨by decide, by decide, by decide, by decide, by decide⟩,
      2024, 1, 15, "T08:30:00.000Z".data, by decide, by decide, by decide, by decide⟩)

/-! ## Claim C4: helper lemmas about the byKey map -/

theorem lexLt_iff : ∀ (x y : List Char), lexLt x y = true ↔ x < y := by
  intro x
  induction x with
  | nil =>
    intro y
    cases y with
    | nil =>
      rw [show lexLt [] [] = false from rfl]
      simp only [Bool.false_eq_true, false_iff]
      exact List.Lex.not_nil_right _ _
    | cons b bs =>
      rw [show lexLt [] (b :: bs) = true from rfl]
      simp only [true_iff]
      exact List.Lex.nil
  | cons a as ih =>
    intro y
    cases y with
    | nil =>
      rw [show lexLt (a :: as) [] = false from rfl]
      simp only [Bool.false_eq_true, false_iff]
      exact List.Lex.not_nil_right _ _
    | cons b bs =>
      show (if a < b then true else if b < a then false else lexLt as bs) = true ↔ _
      by_cases hab : a < b
      · rw [if_pos hab]
        simp only [true_iff]
        exact List.Lex.rel hab
      · rw [if_neg hab]
        by_cases hba : b < a
        · rw [if_pos hba]
          simp only [Bool.false_eq_true, false_iff]
          intro h
          cases h with
          | cons h' => exact absurd hba (lt_irrefl a)
          | rel h' => exact hab h'
        · rw [if_neg hba, ih bs]
          have heq : a = b := le_antisymm (not_lt.mp hba) (not_lt.mp hab)
          constructor
          · intro h
            exact heq ▸ List.Lex.cons h
          · intro h
            cases h with
            | cons h' => exact h'
            | rel h' => exact absurd h' hab

theorem keyDesc_iff (a b : String) : keyDesc a b ↔ ¬ (a < b) := by
  unfold keyDesc
  rw [← Bool.not_eq_true, lexLt_iff]
  exact not_congr String.lt_iff_toList_lt.symm

theorem mapAdd_fst (m : List (String × PEntry)) (k : String) (ex : Expense) :
    (mapAdd m k ex).map Prod.fst
      = if k ∈ m.map Prod.fst then m.map Prod.fst else m.map Prod.fst ++ [k] := by
  induction m with
  | nil => simp [mapAdd]
  | cons he rest ih =>
    obtain ⟨k', en⟩ := he
    rw [mapAdd]
    by_cases hk : k' = k
    · subst hk
      rw [if_pos rfl, if_pos (by simp), List.map_cons, List.map_cons]
    · rw [if_neg hk, List.map_cons, ih]
      by_cases hmem : k ∈ rest.map Prod.fst
      · rw [if_pos hmem, if_pos (by rw [List.map_cons]; exact List.mem_cons_of_mem _ hmem),
          List.map_cons]
      · rw [if_neg hmem, if_neg (by
          rw [List.map_cons, List.mem_cons]
          rintro (h | h)
          · exact hk h.symm
          · exact hmem h)]
        rw [List.map_cons, List.cons_append]

theorem mapAdd_lookup_ne (m : List (String × PEntry)) (k0 k : String) (ex : Expense)
    (h : k ≠ k0) : (mapAdd m k0 ex).lookup k = m.lookup k := by
  induction m with
  | nil =>
    rw [mapAdd]
    have hbeq : (k == k0) = false := beq_eq_false_iff_ne.mpr h
    simp [List.lookup, hbeq]
  | cons he rest ih =>
    obtain ⟨k', en⟩ := he
    rw [mapAdd]
    by_cases hk : k' = k0
    · rw [if_pos hk]
      have hbeq : (k == k') = false := beq_eq_false_iff_ne.mpr (by rw [hk]; exact h)
      simp [List.lookup, hbeq]
    · rw [if_neg hk]
      by_cases hkk : k = k'
      · subst hkk
        simp [List.lookup]
      · have hbeq : (k == k') = false := beq_eq_false_iff_ne.mpr hkk
        simp [List.lookup, hbeq, ih]

theorem mapAdd_lookup_eq (m : List (String × PEntry)) (k0 : String) (ex : Expense) :
    ((mapAdd m k0 ex).lookup k0).getD ⟨0, catZero⟩
      = ⟨((m.lookup k0).getD ⟨0, catZero⟩).total + ex.amount,
         bumpCat ((m.lookup k0).getD ⟨0, catZero⟩).byCategory ex.category ex.amount⟩ := by
  induction m with
  | nil =>
    rw [mapAdd]
    simp [List.lookup, catZero]
  | cons he rest ih =>
    obtain ⟨k', en⟩ := he
    rw [mapAdd]
    by_cases hk : k' = k0
    · subst hk
      rw [if_pos rfl]
      simp [List.lookup]
    · rw [if_neg hk]
      have hbeq : (k0 == k') = false := beq_eq_false_iff_ne.mpr (fun he' => hk he'.symm)
      simp only [List.lookup, hbeq]
      exact ih

theorem fold_keys_mem (es : List Expense) (p : Period) : ∀ (acc : List (String × PEntry))
    (k : String),
    k ∈ (es.foldl (fun acc ex => mapAdd acc (getPeriodKey ex.createdAt p) ex) acc).map
        Prod.fst
      ↔ k ∈ acc.map Prod.fst ∨ k ∈ es.map (keyOf p) := by
  induction es with
  | nil =>
    intro acc k
    simp
  | cons ex es ih =>
    intro acc k
    rw [List.foldl_cons, ih, mapAdd_fst]
    have hsplit : k ∈ (if getPeriodKey ex.createdAt p ∈ acc.map Prod.fst
        then acc.map Prod.fst else acc.map Prod.fst ++ [getPeriodKey ex.createdAt p])
        ↔ k ∈ acc.map Prod.fst ∨ k = getPeriodKey ex.createdAt p := by
      split_ifs with hmem
      · exact ⟨Or.inl, fun h => h.elim id (fun he => by rw [he]; exact hmem)⟩
      · simp
    rw [hsplit, List.map_cons, List.mem_cons]
    unfold keyOf
    tauto

theorem fold_keys_nodup (es : List Expense) (p : Period) : ∀ (acc : List (String × PEntry)),
    (acc.map Prod.fst).Nodup →
    ((es.foldl (fun acc ex => mapAdd acc (getPeriodKey ex.createdAt p) ex) acc).map
        Prod.fst).Nodup := by
  induction es with
  | nil => exact fun acc h => h
  | cons ex es ih =>
    intro acc h
    rw [List.foldl_cons]
    refine ih _ ?_
    rw [mapAdd_fst]
    split_ifs with hmem
    · exact h
    · rw [List.nodup_append]
      refine ⟨h, List.nodup_singleton _, ?_⟩
      intro a ha hb
      rw [List.mem_singleton] at hb
      subst hb
      exact hmem ha

theorem fold_total (es : List Expense) (p : Period) : ∀ (acc : List (String × PEntry))
    (k : String),
    (((es.foldl (fun acc ex => mapAdd acc (getPeriodKey ex.createdAt p) ex) acc).lookup
        k).getD ⟨0, catZero⟩).total
      = ((acc.lookup k).getD ⟨0, catZero⟩).total + keySum es p k := by
  induction es with
  | nil =>
    intro acc k
    simp [keySum, sumAmounts]
  | cons ex es ih =>
    intro acc k
    rw [List.foldl_cons, ih]
    by_cases hk : k = getPeriodKey ex.createdAt p
    · subst hk
      rw [mapAdd_lookup_eq]
      have hsum : keySum (ex :: es) p (getPeriodKey ex.createdAt p)
          = ex.amount + keySum es p (getPeriodKey ex.createdAt p) := by
        unfold keySum sumAmounts keyOf
        rw [List.filter_cons_of_pos (by simp)]
        simp
      rw [hsum]
      dsimp only
      ring
    · rw [mapAdd_lookup_ne _ _ _ _ hk]
      have hsum : keySum (ex :: es) p k = keySum es p k := by
        unfold keySum sumAmounts keyOf
        rw [List.filter_cons_of_neg (by simpa using fun he => hk he.symm)]
      rw [hsum]

theorem fold_cat (es : List Expense) (p : Period) : ∀ (acc : List (String × PEntry))
    (k : String) (c : Category),
    (((es.foldl (fun acc ex => mapAdd acc (getPeriodKey ex.createdAt p) ex) acc).lookup
        k).getD ⟨0, catZero⟩).byCategory c
      = ((acc.lookup k).getD ⟨0, catZero⟩).byCategory c + catSum es p k c := by
  induction es with
  | nil =>
    intro acc k c
    simp [catSum, sumAmounts]
  | cons ex es ih =>
    intro acc k c
    rw [List.foldl_cons, ih]
    by_cases hk : k = getPeriodKey ex.createdAt p
    · subst hk
      rw [mapAdd_lookup_eq]
      dsimp only
      unfold bumpCat
      by_cases hc : c = ex.category
      · rw [if_pos hc]
        have hsum : catSum (ex :: es) p (getPeriodKey ex.createdAt p) c
            = ex.amount + catSum es p (getPeriodKey ex.createdAt p) c := by
          unfold catSum sumAmounts keyOf
          rw [List.filter_cons_of_pos (by simp [hc.symm])]
          simp
        rw [hsum]
        ring
      · rw [if_neg hc]
        have hsum : catSum (ex :: es) p (getPeriodKey ex.createdAt p) c
            = catSum es p (getPeriodKey ex.createdAt p) c := by
          unfold catSum sumAmounts keyOf
          rw [List.filter_cons_of_neg (by simp; intro hcat; exact hc hcat.symm)]
        rw [hsum]
    · rw [mapAdd_lookup_ne _ _ _ _ hk]
      have hsum : catSum (ex :: es) p k c = catSum es p k c := by
        unfold catSum sumAmounts keyOf
        rw [List.filter_cons_of_neg (by simp; intro he; exact absurd he.symm hk)]
      rw [hsum]

/-- C4. For every record list and period, `groupByPeriod` returns one bucket
per distinct period key, capped at the 14 most recent: the bucket count is
`min 14 (number of distinct keys)` (so 20 distinct months yield exactly 14
buckets), buckets are ordered newest-period-first (strictly descending
keys), every dropped key is older (smaller) than every kept key, and each
bucket carries its period total and a per-category sub-total defined for
every category of the enumeration, zero for categories absent from the
bucket. -/
theorem groupByPeriod_spec (es : List Expense) (p : Period) :
    (groupByPeriod es p).length = min 14 (es.map (keyOf p)).dedup.length ∧
    List.Pairwise (fun a b : PBucket => b.key < a.key) (groupByPeriod es p) ∧
    (∀ b ∈ groupByPeriod es p, b.key ∈ es.map (keyOf p)) ∧
    (∀ k ∈ es.map (keyOf p), k ∉ (groupByPeriod es p).map PBucket.key →
      ∀ b ∈ groupByPeriod es p, k < b.key) ∧
    (∀ b ∈ groupByPeriod es p, b.total = keySum es p b.key) ∧
    (∀ b ∈ groupByPeriod es p, ∀ c : Category, b.byCategory c = catSum es p b.key c) := by
  haveI : IsTotal String keyDesc := ⟨fun a b => by
    rw [keyDesc_iff, keyDesc_iff]
    by_cases h : a < b
    · exact Or.inr (lt_asymm h)
    · exact Or.inl h⟩
  haveI : IsTrans String keyDesc := ⟨fun a b c h1 h2 => by
    rw [keyDesc_iff] at h1 h2 ⊢
    rw [not_lt] at h1 h2 ⊢
    exact le_trans h2 h1⟩
  have hknd : ((buildMap es p).map Prod.fst).Nodup :=
    fold_keys_nodup es p [] (by simp)
  have hkmem : ∀ k, k ∈ (buildMap es p).map Prod.fst ↔ k ∈ es.map (keyOf p) := by
    intro k
    have h := fold_keys_mem es p [] k
    simpa using h
  have hsorted : List.Sorted keyDesc
      (((buildMap es p).map Prod.fst).insertionSort keyDesc) :=
    List.sorted_insertionSort _ _
  have hperm : (((buildMap es p).map Prod.fst).insertionSort keyDesc).Perm
      ((buildMap es p).map Prod.fst) := List.perm_insertionSort _ _
  have hsnd : (((buildMap es p).map Prod.fst).insertionSort keyDesc).Nodup :=
    hperm.nodup_iff.mpr hknd
  have hstrict : List.Pairwise (fun a b => b < a)
      (((buildMap es p).map Prod.fst).insertionSort keyDesc) :=
    (hsorted.and hsnd).imp (fun hab =>
      lt_of_le_of_ne (not_lt.mp ((keyDesc_iff _ _).mp hab.1))
        (fun he => hab.2 he.symm))
  have hgbp : groupByPeriod es p
      = ((((buildMap es p).map Prod.fst).insertionSort keyDesc).take 14).map
          (fun k => ⟨k, (((buildMap es p).lookup k).getD ⟨0, catZero⟩).total,
            (((buildMap es p).lookup k).getD ⟨0, catZero⟩).byCategory⟩) := rfl
  have hrkeys : (groupByPeriod es p).map PBucket.key
      = (((buildMap es p).map Prod.fst).insertionSort keyDesc).take 14 := by
    rw [hgbp, List.map_map]
    exact (List.map_congr_left fun k _ => rfl).trans (List.map_id _)
  have hmem_of : ∀ b ∈ groupByPeriod es p,
      ∃ k, k ∈ (((buildMap es p).map Prod.fst).insertionSort keyDesc).take 14 ∧
        b = ⟨k, (((buildMap es p).lookup k).getD ⟨0, catZero⟩).total,
          (((buildMap es p).lookup k).getD ⟨0, catZero⟩).byCategory⟩ := by
    intro b hb
    rw [hgbp] at hb
    obtain ⟨k, hk, hbk⟩ := List.mem_map.mp hb
    exact ⟨k, hk, hbk.symm⟩
  refine ⟨?_, ?_, ?_, ?_, ?_, ?_⟩
  · rw [hgbp, List.length_map, List.length_take, hperm.length_eq,
      ((List.perm_ext_iff_of_nodup hknd
          (List.nodup_dedup (es.map (keyOf p)))).mpr (fun a => by
        rw [List.mem_dedup]; exact hkmem a)).length_eq]
  · rw [hgbp]
    exact List.Pairwise.map _ (fun a b hab => hab)
      (List.Pairwise.sublist (List.take_sublist 14 _) hstrict)
  · intro b hb
    obtain ⟨k, hk, rfl⟩ := hmem_of b hb
    exact (hkmem k).mp (hperm.mem_iff.mp (List.take_subset _ _ hk))
  · intro k hkes hknot b hb
    obtain ⟨k', hk', rfl⟩ := hmem_of b hb
    have hkin : k ∈ ((buildMap es p).map Prod.fst).insertionSort keyDesc :=
      hperm.mem_iff.mpr ((hkmem k).mpr hkes)
    rw [hrkeys] at hknot
    have hsplit : (((buildMap es p).map Prod.fst).insertionSort keyDesc).take 14
        ++ (((buildMap es p).map Prod.fst).insertionSort keyDesc).drop 14
        = ((buildMap es p).map Prod.fst).insertionSort keyDesc :=
      List.take_append_drop 14 _
    have hkdrop : k ∈ (((buildMap es p).map Prod.fst).insertionSort keyDesc).drop 14 := by
      rcases List.mem_append.mp (by rw [hsplit]; exact hkin) with h | h
      · exact absurd h hknot
      · exact h
    have hpa := List.pairwise_append.mp (by rw [hsplit]; exact hstrict)
    exact hpa.2.2 k' hk' k hkdrop
  · intro b hb
    obtain ⟨k, hk, rfl⟩ := hmem_of b hb
    have h := fold_total es p [] k
    simp only [List.lookup] at h
    simpa using h
  · intro b hb c
    obtain ⟨k, hk, rfl⟩ := hmem_of b hb
    have h := fold_cat es p [] k c
    simp only [List.lookup] at h
    simpa [catZero] using h

theorem groupByPeriod_spec_witness :
    bkt4w ∈ groupByPeriod es4w Period.month ∧
    bkt4w.total = keySum es4w Period.month bkt4w.key ∧
    bkt4w.byCategory Category.sasha
      = catSum es4w Period.month bkt4w.key Category.sasha ∧
    (groupByPeriod es4w Period.month).length
      = min 14 ((es4w.map (keyOf Period.month)).dedup).length := by
  have hmem : bkt4w ∈ groupByPeriod es4w Period.month := by
    rw [show groupByPeriod es4w Period.month
      = [bkt4w, ⟨"2024-01", 5, bumpCat catZero Category.food 5⟩] from rfl]
    exact List.mem_cons_self _ _
  have h := groupByPeriod_spec es4w Period.month
  exact ⟨hmem, h.2.2.2.2.1 bkt4w hmem, h.2.2.2.2.2 bkt4w hmem Category.sasha, h.1⟩

end ExpenseTracker
